import Mathlib

/-!
Verification of the prompt-budget and diagram-validation pipeline of
`backend/services/llm_service.py`.

Texts are modelled as `List Char` (ASCII fragment of Python `str`), and the
Python string operations used by the source (`strip`, `split`, `join`,
`replace`, slicing, substring search, and the three concrete regular
expressions `-{4,}>`, `\.{4,}>` and `(\w+)\s+(\w+)(?=\s*$)`) are embedded as
executable functions below.  Python regular expressions are specialised to
their concrete patterns; `\w` and `\s` are modelled over the ASCII range.
-/

namespace LlmService

/-- Texts are lists of characters (the ASCII fragment of Python `str`). -/
abbrev Str := List Char

/-- A Lean string literal viewed as a `Str`. -/
def lit (s : String) : Str := s.data

/-- The character class of Python `\s` / `str.strip` (ASCII fragment). -/
def isPySpace (c : Char) : Bool :=
  c = ' ' || c = '\t' || c = '\n' || c = '\r' || c = '\x0b' || c = '\x0c'

/-- The character class of Python `\w` (ASCII fragment). -/
def isWordChar (c : Char) : Bool :=
  c.isAlpha || c.isDigit || c = '_'

/-- Python `str.strip()`: drop whitespace from both ends. -/
def trimL (s : Str) : Str :=
  ((s.dropWhile isPySpace).reverse.dropWhile isPySpace).reverse

/-- Python `'\n'.join`. -/
def joinNl (ls : List Str) : Str := List.intercalate [ '\n' ] ls

/-- Python `str.split('\n')`. -/
def splitNl (s : Str) : List Str := s.splitOn '\n'

/-- Tail-recursive scan for the first occurrence of `pat` starting at
accumulated index `i`. -/
def firstIdxAux (pat : Str) : Nat → Str → Option Nat
  | i, s =>
    if pat.isPrefixOf s then some i
    else
      match s with
      | [] => none
      | _ :: t => firstIdxAux pat (i + 1) t

/-- Index of the first occurrence of `pat` in `s` (Python `str.index` /
the `in` operator), as an option. -/
def firstIdx (s pat : Str) : Option Nat := firstIdxAux pat 0 s

/-- Python `pat in s` (substring containment). -/
def containsSubstr (s pat : Str) : Bool := (firstIdx s pat).isSome

/-- Python `s.split(pat)[0]`: the prefix of `s` before the first occurrence
of `pat` (all of `s` if `pat` does not occur). -/
def splitFirstSub (s pat : Str) : Str :=
  match firstIdx s pat with
  | some i => s.take i
  | none => s

/-- Python `s.replace(pat, rep)` for a non-empty `pat`: replace every
occurrence, scanning left to right.  The `fuel` argument makes the scan
structurally recursive; it is initialised to the length of the text, which
the scan never exhausts. -/
def replaceAllF (pat rep : Str) : Nat → Str → Str
  | _, [] => []
  | 0, s => s
  | fuel + 1, c :: t =>
    if pat ≠ [] ∧ pat.isPrefixOf (c :: t) then
      rep ++ replaceAllF pat rep fuel ((c :: t).drop pat.length)
    else
      c :: replaceAllF pat rep fuel t

def replaceAll (pat rep : Str) (s : Str) : Str := replaceAllF pat rep s.length s

/-- Decimal rendering of a natural number (Python f-string interpolation). -/
def natToStr (n : Nat) : Str := (Nat.repr n).data

/-! ### The syntax repairer (`fix_mermaid_syntax`) -/

/-- `re.sub(r'-{4,}>', '-->', line)`: every maximal run of four or more
dashes immediately followed by `>` becomes `-->`; fuelled structural scan. -/
def subDashF : Nat → Str → Str
  | _, [] => []
  | 0, s => s
  | fuel + 1, c :: t =>
    if c = '-' then
      let ds := (c :: t).takeWhile (· = '-')
      match (c :: t).dropWhile (· = '-') with
      | '>' :: r2 =>
        if 4 ≤ ds.length then '-' :: '-' :: '>' :: subDashF fuel r2
        else ds ++ subDashF fuel ('>' :: r2)
      | r => ds ++ subDashF fuel r
    else
      c :: subDashF fuel t

def subDash (s : Str) : Str := subDashF s.length s

/-- `re.sub(r'\.{4,}>', '-..->', line)`: every maximal run of four or more
dots immediately followed by `>` becomes `-..->`; fuelled structural scan. -/
def subDotsF : Nat → Str → Str
  | _, [] => []
  | 0, s => s
  | fuel + 1, c :: t =>
    if c = '.' then
      let ds := (c :: t).takeWhile (· = '.')
      match (c :: t).dropWhile (· = '.') with
      | '>' :: r2 =>
        if 4 ≤ ds.length then '-' :: '.' :: '.' :: '-' :: '>' :: subDotsF fuel r2
        else ds ++ subDotsF fuel ('>' :: r2)
      | r => ds ++ subDotsF fuel r
    else
      c :: subDotsF fuel t

def subDots (s : Str) : Str := subDotsF s.length s

/-- `re.sub(r';+', ';', line)`: collapse every run of semicolons to one;
fuelled structural scan. -/
def collapseSemisF : Nat → Str → Str
  | _, [] => []
  | 0, s => s
  | fuel + 1, c :: t =>
    if c = ';' then ';' :: collapseSemisF fuel (t.dropWhile (· = ';'))
    else c :: collapseSemisF fuel t

def collapseSemis (s : Str) : Str := collapseSemisF s.length s

/-- One anchored attempt of the pattern `(\w+)\s+(\w+)(?=\s*$)` at the start
of `s`: a maximal non-empty word run, a maximal non-empty whitespace run, a
maximal non-empty word run, and then only whitespace to the end. -/
def matchAt (s : Str) : Option (Str × Str × Str × Str) :=
  let w1 := s.takeWhile isWordChar
  if w1 = [] then none
  else
    let r1 := s.dropWhile isWordChar
    let sp := r1.takeWhile isPySpace
    if sp = [] then none
    else
      let r2 := r1.dropWhile isPySpace
      let w2 := r2.takeWhile isWordChar
      if w2 = [] then none
      else
        let r3 := r2.dropWhile isWordChar
        if r3.all isPySpace then some (w1, sp, w2, r3) else none

theorem matchAt_spec {s w1 sp w2 r3 : Str}
    (h : matchAt s = some (w1, sp, w2, r3)) :
    s = w1 ++ sp ++ w2 ++ r3 ∧ w1 ≠ [] ∧ sp ≠ [] ∧ w2 ≠ [] ∧
      w1 = s.takeWhile isWordChar ∧
      sp = (s.dropWhile isWordChar).takeWhile isPySpace ∧
      w2 = ((s.dropWhile isWordChar).dropWhile isPySpace).takeWhile isWordChar ∧
      r3 = ((s.dropWhile isWordChar).dropWhile isPySpace).dropWhile isWordChar ∧
      r3.all isPySpace := by
  unfold matchAt at h
  simp only at h
  split at h
  · exact absurd h (by simp)
  · split at h
    · exact absurd h (by simp)
    · split at h
      · exact absurd h (by simp)
      · split at h
        · rename_i hw1 hsp hw2 hall
          simp only [Option.some.injEq, Prod.mk.injEq] at h
          obtain ⟨h1, h2, h3, h4⟩ := h
          subst h1; subst h2; subst h3; subst h4
          refine ⟨?_, hw1, hsp, hw2, rfl, rfl, rfl, rfl, hall⟩
          have e1 := List.takeWhile_append_dropWhile (p := isWordChar) (l := s)
          have e2 := List.takeWhile_append_dropWhile (p := isPySpace)
            (l := s.dropWhile isWordChar)
          have e3 := List.takeWhile_append_dropWhile (p := isWordChar)
            (l := (s.dropWhile isWordChar).dropWhile isPySpace)
          conv_lhs => rw [← e1, ← e2, ← e3]
          simp [List.append_assoc]
        · exact absurd h (by simp)

theorem matchAt_shrink {s w1 sp w2 r3 : Str}
    (h : matchAt s = some (w1, sp, w2, r3)) : r3.length < s.length := by
  obtain ⟨hs, hw1, hsp, -⟩ := matchAt_spec h
  rw [hs]
  simp only [List.length_append]
  cases w1 with
  | nil => exact absurd rfl hw1
  | cons a b =>
    cases sp with
    | nil => exact absurd rfl hsp
    | cons c d =>
      simp only [List.length_cons]
      omega

/-- `re.sub(r'(\w+)\s+(\w+)(?=\s*$)', r'\1_\2', s)`: scan left to right; at
the first position where the pattern matches, join the two word runs with an
underscore.  The scan then continues past the match, but the remainder
`r3` is all whitespace, where the pattern cannot match again, so the
remainder is returned unchanged (see `wjAux_all_space`). -/
def wjAux : Str → Str
  | [] => []
  | c :: t =>
    match matchAt (c :: t) with
    | some (w1, _, w2, r3) => w1 ++ '_' :: (w2 ++ r3)
    | none => c :: wjAux t

/-- Node-id repair: split the line at its first `[` and collapse one
trailing word pair in the part before the bracket. -/
def bracketFix (l : Str) : Str :=
  if l.contains '[' then
    let before := l.takeWhile (· ≠ '[')
    let after := (l.dropWhile (· ≠ '[')).drop 1
    wjAux before ++ '[' :: after
  else l

/-- The per-line body of `fix_mermaid_syntax`. -/
def fixLine (l0 : Str) : Str :=
  let l := trimL l0
  if l = [] || (lit "%%").isPrefixOf l then l
  else if (lit "subgraph").isPrefixOf l || l = lit "end" then l
  else
    let l := subDash l
    let l := subDots l
    let l := replaceAll (lit "===>") (lit "-->") l
    let l := replaceAll (lit "....>") (lit "-..->") l
    let l :=
      if l.contains '[' || l.contains '(' ||
          containsSubstr l (lit "-->") || containsSubstr l (lit "-..->") then
        bracketFix l
      else l
    collapseSemis l

/-- The leading `strip` and code-fence removal of `fix_mermaid_syntax`. -/
def preprocess (s : Str) : Str :=
  let code := trimL s
  if (lit "```mermaid").isPrefixOf code then
    trimL (replaceAll (lit "```") [] (replaceAll (lit "```mermaid") [] code))
  else if (lit "```").isPrefixOf code then
    trimL (replaceAll (lit "```") [] code)
  else code

/-- `fix_mermaid_syntax` (the SyntaxRepairer). -/
def fix_mermaid_syntax (s : Str) : Str :=
  joinNl ((splitNl (preprocess s)).map fixLine)

/-! ### The syntax validator (`validate_mermaid_syntax`) -/

def validTypes : List Str :=
  [lit "sequenceDiagram", lit "graph", lit "flowchart", lit "classDiagram",
   lit "erDiagram", lit "stateDiagram", lit "journey", lit "gantt",
   lit "mindmap", lit "pie", lit "gitGraph"]

/-- Per-line bracket-balance errors for the lines after the header, numbered
from 1. -/
def collectErrs : List Str → Nat → List Str
  | [], _ => []
  | l0 :: rest, i =>
    let l := trimL l0
    if l = [] || (lit "%%").isPrefixOf l then collectErrs rest (i + 1)
    else if (lit "subgraph").isPrefixOf l || l = lit "end" then
      collectErrs rest (i + 1)
    else
      (if l.count '[' ≠ l.count ']' then
        [lit "Line " ++ natToStr i ++ lit ": Unmatched brackets"] else []) ++
      (if l.count '(' ≠ l.count ')' then
        [lit "Line " ++ natToStr i ++ lit ": Unmatched parentheses"] else []) ++
      (if l.count '{' ≠ l.count '}' then
        [lit "Line " ++ natToStr i ++ lit ": Unmatched braces"] else []) ++
      collectErrs rest (i + 1)

/-- `validate_mermaid_syntax`. -/
def validate_mermaid_syntax (code : Str) : Bool × List Str :=
  let lines := splitNl (trimL code)
  match lines with
  | [] => (false, [lit "Empty diagram code"])
  | first :: rest =>
    let fl := trimL first
    if ¬ validTypes.any (fun t => t.isPrefixOf fl) then
      (false, [lit "Invalid diagram type: " ++ fl.take 50])
    else
      let errs := collectErrs rest 1
      (errs = [], errs)

/-! ### The completeness validator (`validate_diagram_completeness`) -/

/-- A file-contents entry: either a raw string or a record with `content`
and `purpose` (`purpose` defaults to the empty string, as `dict.get`). -/
inductive FileData where
  | str (s : Str)
  | obj (content : Str) (purpose : Str)
deriving DecidableEq

mutual
/-- A node of the recursive `file_structure` mapping: a leaf file value or
a nested directory mapping. -/
inductive FSNode where
  | file (v : Str)
  | dir (children : FSList)
/-- An ordered sequence of key/value entries of a directory, mirroring a
Python dict. -/
inductive FSList where
  | nil
  | cons (k : Str) (v : FSNode) (rest : FSList)
end

/-- The repository description consumed by the service. -/
structure RepoData where
  name : Str
  language : Str
  description : Str
  stars : Nat
  forks : Nat
  readme : Str
  file_structure : FSList
  file_contents : List (Str × FileData)

/-- `validate_diagram_completeness`. -/
def validate_diagram_completeness (code : Str) (repo : RepoData) :
    Bool × List Str :=
  let lines := splitNl code
  let node_count :=
    (lines.filter (fun l =>
      l.contains '[' && l.contains ']' &&
        ¬ (lit "%%").isPrefixOf (trimL l))).length
  let file_count := repo.file_contents.length
  let min_nodes := if file_count < 20 then 15 else if file_count < 50 then 25 else 35
  let has_subgraphs := containsSubstr (code.map Char.toLower) (lit "subgraph")
  let issues :=
    (if node_count < min_nodes then
      [lit "Diagram too simple: only " ++ natToStr node_count ++
        lit " components (need " ++ natToStr min_nodes ++ lit "+)"] else []) ++
    (if ¬ has_subgraphs && decide (file_count > 10) then
      [lit "Missing organization: no subgraphs used"] else [])
  (issues = [], issues)

/-! ### The response parser -/

/-- `detect_diagram_type`. -/
def detect_diagram_type (code : Str) : Str :=
  let cl := trimL (code.map Char.toLower)
  if (lit "sequencediagram").isPrefixOf cl then lit "sequence"
  else if (lit "flowchart").isPrefixOf cl || (lit "graph").isPrefixOf cl then
    lit "flowchart"
  else if (lit "classdiagram").isPrefixOf cl then lit "class"
  else if (lit "erdiagram").isPrefixOf cl then lit "database"
  else if (lit "statediagram").isPrefixOf cl then lit "state"
  else lit "custom"

/-- `clean_mermaid_code`: repair, then run the syntax validator only for a
console warning (its result does not affect the returned value). -/
def clean_mermaid_code (code : Str) : Str :=
  let cleaned := fix_mermaid_syntax code
  let _ := validate_mermaid_syntax cleaned
  cleaned

def diagramStartMarker : Str := lit "[DIAGRAM_START]"

def diagramEndMarker : Str := lit "[DIAGRAM_END]"

/-- `extract_diagram_from_response`.  Python slices clamp, and `Nat`
subtraction mirrors an end index at or before the start index yielding the
empty slice. -/
def extract_diagram_from_response (response_text : Str) :
    Str × Option Str × Option Str :=
  let answer := trimL response_text
  if containsSubstr answer diagramStartMarker &&
      containsSubstr answer diagramEndMarker then
    match firstIdx answer diagramStartMarker, firstIdx answer diagramEndMarker with
    | some si, some ei =>
      let start_idx := si + diagramStartMarker.length
      let raw := trimL ((answer.drop start_idx).take (ei - start_idx))
      let mermaid_code := clean_mermaid_code raw
      let diagram_type := detect_diagram_type mermaid_code
      (trimL (answer.take si), some mermaid_code, some diagram_type)
    | _, _ => (answer, none, none)
  else (answer, none, none)

/-- `generate_follow_up_questions`. -/
def generate_follow_up_questions (_answer : Str) (has_diagram : Bool)
    (_diagram_type : Option Str) : List Str :=
  if has_diagram then
    [lit "Add more implementation details to the diagram",
     lit "Show error handling and edge cases",
     lit "Include deployment and infrastructure"]
  else
    [lit "Create a comprehensive architecture diagram",
     lit "Show complete data flow with all components",
     lit "Generate detailed sequence diagram"]

/-! ### Component extraction (`extract_detailed_repo_components`) -/

/-- The classification buckets produced by `extract_detailed_repo_components`. -/
structure Components where
  frontend_files : List Str := []
  backend_files : List Str := []
  services : List Str := []
  routes : List Str := []
  models : List Str := []
  components : List Str := []
  pages : List Str := []
  utils : List Str := []
  config_files : List Str := []
  database_files : List Str := []
  api_endpoints : List Str := []
  dependencies : List Str := []
  folders : List Str := []
  all_files : List Str := []

def configExts : List Str :=
  [lit ".json", lit ".yaml", lit ".yml", lit ".env", lit ".toml", lit ".ini"]

/-- Bucket tests applied to every leaf path of the file structure. -/
def classifyFile (acc : Components) (cur : Str) : Components :=
  let p := cur.map Char.toLower
  let acc := { acc with all_files := acc.all_files ++ [cur] }
  let acc := if containsSubstr p (lit "frontend") || containsSubstr p (lit "client") then
    { acc with frontend_files := acc.frontend_files ++ [cur] } else acc
  let acc := if containsSubstr p (lit "backend") || containsSubstr p (lit "server") then
    { acc with backend_files := acc.backend_files ++ [cur] } else acc
  let acc := if containsSubstr p (lit "service") then
    { acc with services := acc.services ++ [cur] } else acc
  let acc := if containsSubstr p (lit "route") || containsSubstr p (lit "router") then
    { acc with routes := acc.routes ++ [cur] } else acc
  let acc := if containsSubstr p (lit "model") || containsSubstr p (lit "schema") then
    { acc with models := acc.models ++ [cur] } else acc
  let acc := if containsSubstr p (lit "component") then
    { acc with components := acc.components ++ [cur] } else acc
  let acc := if containsSubstr p (lit "page") || containsSubstr p (lit "view") then
    { acc with pages := acc.pages ++ [cur] } else acc
  let acc := if containsSubstr p (lit "util") || containsSubstr p (lit "helper") then
    { acc with utils := acc.utils ++ [cur] } else acc
  let acc := if configExts.any (fun e => e.isSuffixOf cur) then
    { acc with config_files := acc.config_files ++ [cur] } else acc
  let acc := if containsSubstr p (lit "database") || containsSubstr p (lit "/db") ||
      (lit ".sql").isSuffixOf cur then
    { acc with database_files := acc.database_files ++ [cur] } else acc
  acc

/-- `traverse_structure`: depth-first walk of the nested mapping, recording
folders and classifying leaf files. -/
def travList (acc : Components) (path : Str) : FSList → Components
  | .nil => acc
  | .cons k v rest =>
    let cur := if path = [] then k else path ++ '/' :: k
    match v with
    | .dir ch =>
      travList (travList { acc with folders := acc.folders ++ [cur] } cur ch)
        path rest
    | .file _ => travList (classifyFile acc cur) path rest

/-- The dependency-manifest scan at the end of
`extract_detailed_repo_components`. -/
def depScan (acc : Components) : List (Str × FileData) → Components
  | [] => acc
  | (filename, content) :: rest =>
    let acc :=
      if containsSubstr filename (lit "requirements.txt") ||
          containsSubstr filename (lit "package.json") ||
          containsSubstr filename (lit "pyproject.toml") then
        match content with
        | .str c =>
          { acc with dependencies := acc.dependencies ++
              (((splitNl c).take 50).filterMap (fun l0 =>
                let l := trimL l0
                if l ≠ [] ∧ ¬ (lit "#").isPrefixOf l then
                  some (trimL (splitFirstSub (splitFirstSub l (lit "==")) (lit ">=")))
                else none)) }
        | .obj _ _ => acc
      else acc
    depScan acc rest

/-- `extract_detailed_repo_components`. -/
def extract_detailed_repo_components (repo : RepoData) : Components :=
  depScan (travList {} [] repo.file_structure) repo.file_contents

/-! ### The prompt budgeter -/

def MAX_CONTEXT_CHARS : Nat := 480000
def MAX_FILE_CONTENTS_CHARS : Nat := 300000
def MAX_FILES_IN_PROMPT : Nat := 40

/-- The `purpose` tag of a file-contents entry (`dict.get('purpose', '')`,
and the empty string for raw-string entries). -/
def purposeOf : FileData → Str
  | .str _ => []
  | .obj _ p => p

def priorityPurposes : List Str :=
  [lit "api", lit "service", lit "data_model", lit "middleware", lit "configuration"]

/-- The priority-first trimmed selection of at most `max_files` entries. -/
def trimmedFiles (fc : List (Str × FileData)) (max_files : Nat) :
    List (Str × FileData) :=
  let priority := fc.filter (fun e => purposeOf e.2 ∈ priorityPurposes)
  let others := fc.filter (fun e => purposeOf e.2 ∉ priorityPurposes)
  let fromPriority := priority.take max_files
  fromPriority ++ others.take (max_files - fromPriority.length)

/-- The truncation marker appended when the formatted file contents exceed
the character cap. -/
def truncMarker (max_files total : Nat) : Str :=
  lit "\n\n... [TRUNCATED: showing " ++ natToStr max_files ++ lit "/" ++
    natToStr total ++ lit " files to stay within token limit]"

/-- `build_trimmed_file_contents`, parameterised by the collaborator
formatter `format_file_contents` from `github_service` (not part of this
repository's sources). -/
def build_trimmed_file_contents (fmtC : List (Str × FileData) → Nat → Str)
    (repo : RepoData) (max_chars max_files : Nat) : Str :=
  let fc := repo.file_contents
  let total := fc.length
  if total = 0 then lit "(no files)"
  else
    let trimmed := trimmedFiles fc max_files
    let formatted := fmtC trimmed max_files
    if formatted.length > max_chars then
      formatted.take max_chars ++ truncMarker max_files total
    else formatted

/-! ### Context assembly (`analyze_repo_with_chat`, prompt build) -/

def eqLine : Str :=
  List.replicate 78 '='

def joinComma (l : List Str) : Str := List.intercalate (lit ", ") l

/-- The local `fmt_list` helper of `analyze_repo_with_chat`. -/
def fmtList (items : List Str) (limit : Nat) : Str :=
  let shown := items.take limit
  let s := joinNl (shown.map (fun f => lit "   - " ++ f))
  let s := if items.length > limit then
    s ++ lit "\n   ... and " ++ natToStr (items.length - limit) ++ lit " more"
  else s
  if s = [] then lit "   (none)" else s

/-- The part of the system context before the `FILE CONTENTS` header,
parameterised by the collaborator formatter `format_file_structure`. -/
def mkContextPre (fmtS : FSList → Str) (repo : RepoData)
    (comps : Components) (file_count : Nat) : Str :=
  lit "\n" ++ eqLine ++ lit "\nREPOSITORY ANALYSIS\n" ++ eqLine ++
  lit "\n\nRepository: " ++ repo.name ++
  lit "\nLanguage: " ++ repo.language ++
  lit "\nTotal Files: " ++ natToStr file_count ++
  lit "\nStars: " ++ natToStr repo.stars ++ lit " | Forks: " ++ natToStr repo.forks ++
  lit "\nDescription: " ++ repo.description ++
  lit "\n\n" ++ eqLine ++ lit "\nFILE STRUCTURE:\n" ++ eqLine ++ lit "\n" ++
  fmtS repo.file_structure ++
  lit "\n\n" ++ eqLine ++ lit "\nCATEGORIZED COMPONENTS:\n" ++ eqLine ++
  lit "\n\n📁 FOLDERS (" ++ natToStr comps.folders.length ++ lit "):\n" ++
  fmtList comps.folders 30 ++
  lit "\n\n🎨 FRONTEND (" ++ natToStr comps.frontend_files.length ++ lit "): " ++
  fmtList comps.frontend_files 30 ++
  lit "\n⚙️ BACKEND (" ++ natToStr comps.backend_files.length ++ lit "): " ++
  fmtList comps.backend_files 30 ++
  lit "\n🔧 SERVICES (" ++ natToStr comps.services.length ++ lit "): " ++
  fmtList comps.services 30 ++
  lit "\n🛣️ ROUTES (" ++ natToStr comps.routes.length ++ lit "): " ++
  fmtList comps.routes 30 ++
  lit "\n📊 MODELS (" ++ natToStr comps.models.length ++ lit "): " ++
  fmtList comps.models 30 ++
  lit "\n🧩 COMPONENTS (" ++ natToStr comps.components.length ++ lit "): " ++
  fmtList comps.components 30 ++
  lit "\n📄 PAGES (" ++ natToStr comps.pages.length ++ lit "): " ++
  fmtList comps.pages 30 ++
  lit "\n🛠️ UTILS (" ++ natToStr comps.utils.length ++ lit "): " ++
  fmtList comps.utils 30 ++
  lit "\n💾 DATABASE (" ++ natToStr comps.database_files.length ++ lit "): " ++
  fmtList comps.database_files 30 ++
  lit "\n\n" ++ eqLine ++ lit "\n"

/-- The part of the system context from just after the `FILE CONTENTS`
label to the end. -/
def mkContextPost (file_contents_section : Str) (repo : RepoData)
    (min_nodes file_count : Nat) : Str :=
  lit " (top " ++ natToStr MAX_FILES_IN_PROMPT ++
  lit " most important files):\n" ++ eqLine ++ lit "\n" ++
  file_contents_section ++
  lit "\n\n" ++ eqLine ++ lit "\nREADME:\n" ++ eqLine ++ lit "\n" ++
  repo.readme.take 5000 ++
  lit "\n\n" ++ eqLine ++ lit "\nDIAGRAM REQUIREMENTS:\n" ++ eqLine ++
  lit "\n\n1. Include minimum " ++ natToStr min_nodes ++
  lit " components (this repo has " ++ natToStr file_count ++ lit " files)\n" ++
  lit "2. Use subgraphs for each major folder\n" ++
  lit "3. Use actual filenames - NO generic names like \"Service\" or \"Component\"\n" ++
  lit "4. Node IDs: ONLY letters, numbers, underscores (no spaces)\n" ++
  lit "5. Arrows: ONLY --> or -.-> or ==>\n" ++
  lit "6. Wrap diagram in [DIAGRAM_START] ... [DIAGRAM_END]\n" ++
  lit "7. NO markdown code blocks inside the diagram tags\n"

/-- The fully assembled system context before the final safety-net
truncation. -/
def mkContextRaw (fmtS : FSList → Str)
    (fmtC : List (Str × FileData) → Nat → Str) (repo : RepoData) : Str :=
  let comps := extract_detailed_repo_components repo
  let file_count := comps.all_files.length
  let min_nodes := max 15 (file_count / 2)
  let fcSection := build_trimmed_file_contents fmtC repo MAX_FILE_CONTENTS_CHARS
    MAX_FILES_IN_PROMPT
  mkContextPre fmtS repo comps file_count ++ lit "FILE CONTENTS" ++
    mkContextPost fcSection repo min_nodes file_count

/-- `n < s.length`, computed by dropping `n` characters (a tail recursion,
so large concrete texts evaluate in constant stack). -/
def lenGT (s : Str) (n : Nat) : Bool := !(s.drop n).isEmpty

theorem lenGT_eq_true_iff {s : Str} {n : Nat} : lenGT s n = true ↔ n < s.length := by
  unfold lenGT
  constructor
  · intro h
    by_contra hle
    rw [List.drop_eq_nil_iff.mpr (by omega)] at h
    simp at h
  · intro h
    cases hd : (s.drop n).isEmpty with
    | false => rfl
    | true =>
      have := List.drop_eq_nil_iff.mp (List.isEmpty_iff.mp hd)
      omega

/-- The system context, with the final `MAX_CONTEXT_CHARS` safety net
(`if len(context) > MAX_CONTEXT_CHARS`). -/
def mkContext (fmtS : FSList → Str)
    (fmtC : List (Str × FileData) → Nat → Str) (repo : RepoData) : Str :=
  let raw := mkContextRaw fmtS fmtC repo
  if lenGT raw MAX_CONTEXT_CHARS then
    raw.take MAX_CONTEXT_CHARS ++ lit "\n\n[CONTEXT TRUNCATED TO FIT TOKEN LIMIT]"
  else raw

/-! ### The orchestration loop -/

/-- A chat message (`SystemMessage` / `HumanMessage` / `AIMessage`). -/
inductive Msg where
  | system (c : Str)
  | human (c : Str)
  | ai (c : Str)
deriving DecidableEq

def Msg.content : Msg → Str
  | .system c => c
  | .human c => c
  | .ai c => c

/-- Python `l[-n:]`. -/
def lastN (n : Nat) (l : List α) : List α := l.drop (l.length - n)

/-- The history portion of the message list: last 6 turns, user turns as
human messages, assistant turns truncated to 2000 characters, other roles
skipped. -/
def mkHistoryMsgs (hist : List (Str × Str)) : List Msg :=
  (lastN 6 hist).filterMap (fun rc =>
    if rc.1 = lit "user" then some (.human rc.2)
    else if rc.1 = lit "assistant" then some (.ai (rc.2.take 2000))
    else none)

def MAX_RETRIES : Nat := 3

/-- The mutable state of the retry loop. -/
structure LoopState where
  messages : List Msg
  attempt : Nat
  answer : Str
deriving DecidableEq

/-- The result record returned by `analyze_repo_with_chat`. -/
structure AnalysisResult where
  answer : Str
  mermaid_code : Option Str
  diagram_type : Option Str
  has_diagram : Bool
  follow_up_questions : List Str
  repo_name : Str
deriving DecidableEq

/-- Python truthiness of the optional diagram text: `None` and the empty
string are falsy. -/
def pyTruthy : Option Str → Bool
  | some s => !s.isEmpty
  | none => false

def syntaxRetryMsg (errs : List Str) : Str :=
  lit "SYNTAX ERRORS: " ++ joinComma (errs.take 3) ++
    lit ". Fix node IDs (no spaces, use underscores) and bracket matching. Regenerate."

def completenessRetryMsg (issues : List Str) (min_nodes : Nat) : Str :=
  lit "DIAGRAM TOO SIMPLE: " ++ joinComma issues ++ lit ". Include at least " ++
    natToStr min_nodes ++ lit " components with subgraphs. Use real filenames. Regenerate."

/-- The result returned after the final failed attempt. -/
def errorResult (repo : RepoData) (err : Str) : AnalysisResult :=
  { answer := lit "Error generating response: " ++ err
    mermaid_code := none
    diagram_type := none
    has_diagram := false
    follow_up_questions := []
    repo_name := repo.name }

/-- The result returned from the success path of the loop body. -/
def successResult (repo : RepoData) (ans : Str) (mc : Option Str)
    (dt : Option Str) : AnalysisResult :=
  { answer := ans
    mermaid_code := mc
    diagram_type := dt
    has_diagram := mc.isSome
    follow_up_questions := generate_follow_up_questions ans mc.isSome dt
    repo_name := repo.name }

/-- The substring sniff for a context-length failure
(`"context_length_exceeded" in err or "maximum context length" in err`). -/
def isCtxLenErr (e : Str) : Bool :=
  containsSubstr e (lit "context_length_exceeded") ||
    containsSubstr e (lit "maximum context length")

/-- The degraded-budget rebuild of the system context on a context-length
failure (`context.split("FILE CONTENTS")[0]` plus the reduced section). -/
def degradedContext (fmtC : List (Str × FileData) → Nat → Str)
    (repo : RepoData) (context : Str) : Str :=
  let reduced := build_trimmed_file_contents fmtC repo 80000 15
  splitFirstSub context (lit "FILE CONTENTS") ++
    lit "FILE CONTENTS (reduced due to token limit):\n" ++ eqLine ++
    '\n' :: reduced

/-- One-step outcome of the loop body: return a result, or continue with an
updated state. -/
inductive StepRes where
  | done (r : AnalysisResult)
  | again (s : LoopState)
deriving DecidableEq

/-- One iteration of the `while attempt < max_retries` body, given the
outcome `out` of this iteration's `llm.invoke`. -/
def loopStep (fmtC : List (Str × FileData) → Nat → Str) (repo : RepoData)
    (context : Str) (min_nodes : Nat) (out : Except Str Str)
    (st : LoopState) : StepRes :=
  match out with
  | .ok answer_text =>
    let ext := extract_diagram_from_response answer_text
    let ans := ext.1
    let mcOpt := ext.2.1
    let dt := ext.2.2
    if pyTruthy mcOpt then
      let mc := fix_mermaid_syntax (mcOpt.getD [])
      let sv := validate_mermaid_syntax mc
      let cv := validate_diagram_completeness mc repo
      if ¬ sv.1 ∧ st.attempt < MAX_RETRIES - 1 then
        let msgs1 := st.messages ++ [.ai (answer_text.take 1000), .human (syntaxRetryMsg sv.2)]
        .again { messages := msgs1, attempt := st.attempt + 1, answer := ans }
      else if ¬ cv.1 ∧ st.attempt < MAX_RETRIES - 1 then
        let msgs2 := st.messages ++
          [.ai (answer_text.take 1000), .human (completenessRetryMsg cv.2 min_nodes)]
        .again { messages := msgs2, attempt := st.attempt + 1, answer := ans }
      else .done (successResult repo ans (some mc) dt)
    else .done (successResult repo ans mcOpt dt)
  | .error e =>
    let isCtx := isCtxLenErr e
    if isCtx ∧ st.attempt < MAX_RETRIES - 1 then
      let msgs0 := st.messages.set 0 (.system (degradedContext fmtC repo context))
      .again { messages := msgs0, attempt := st.attempt + 1, answer := st.answer }
    else if st.attempt < MAX_RETRIES - 1 then
      .again { messages := st.messages, attempt := st.attempt + 1, answer := st.answer }
    else .done (errorResult repo e)

/-- The model collaborator: the outcome (reply text or raised error text)
of the `k`-th invocation on a given message list. -/
abbrev Oracle := Nat → List Msg → Except Str Str

/-- Outcome of the whole loop: a result returned from inside the loop (with
the attempt counter at return time), or exhaustion of the while-condition
(with the final state). -/
inductive LoopOut where
  | finished (r : AnalysisResult) (finalAttempt : Nat)
  | exhausted (st : LoopState)
deriving DecidableEq

/-- The retry loop.  `fuel` models the remaining iterations allowed by
`while attempt < max_retries` (each non-returning iteration increments
`attempt` by exactly one).  Also returns the trace of message lists passed
to `llm.invoke`, one entry per invocation. -/
def runLoop (oracle : Oracle) (fmtC : List (Str × FileData) → Nat → Str)
    (repo : RepoData) (context : Str) (min_nodes : Nat) :
    Nat → Nat → LoopState → LoopOut × List (List Msg)
  | 0, _, st => (.exhausted st, [])
  | fuel + 1, k, st =>
    let out := oracle k st.messages
    match loopStep fmtC repo context min_nodes out st with
    | .done r => (.finished r st.attempt, [st.messages])
    | .again st' =>
      let res := runLoop oracle fmtC repo context min_nodes fuel (k + 1) st'
      (res.1, st.messages :: res.2)

/-- The default result produced when the while-condition exhausts. -/
def fallbackResult (repo : RepoData) (st : LoopState) : AnalysisResult :=
  { answer := if st.answer.isEmpty then lit "Unable to generate response" else st.answer
    mermaid_code := none
    diagram_type := none
    has_diagram := false
    follow_up_questions := []
    repo_name := repo.name }

/-- `analyze_repo_with_chat`, parameterised by the model collaborator and
the two pure text formatters of `github_service`.  Returns the result
together with the trace of invocations. -/
def analyze_repo_with_chat (oracle : Oracle)
    (fmtS : FSList → Str)
    (fmtC : List (Str × FileData) → Nat → Str)
    (repo : RepoData) (question : Str) (hist : List (Str × Str)) :
    AnalysisResult × List (List Msg) :=
  let comps := extract_detailed_repo_components repo
  let file_count := comps.all_files.length
  let min_nodes := max 15 (file_count / 2)
  let context := mkContext fmtS fmtC repo
  let msgs := Msg.system context :: (mkHistoryMsgs hist ++ [Msg.human question])
  let res := runLoop oracle fmtC repo context min_nodes MAX_RETRIES 0
    ⟨msgs, 0, []⟩
  match res.1 with
  | .finished r _ => (r, res.2)
  | .exhausted st => (fallbackResult repo st, res.2)


/-! ### Helper lemmas -/

theorem firstIdxAux_isSome_shift {pat : Str} :
    ∀ (s : Str) (i j : Nat),
      (firstIdxAux pat i s).isSome = (firstIdxAux pat j s).isSome := by
  intro s
  induction s with
  | nil =>
    intro i j
    unfold firstIdxAux
    split <;> rfl
  | cons c t ih =>
    intro i j
    unfold firstIdxAux
    split
    · rfl
    · exact ih (i + 1) (j + 1)

theorem containsSubstr_of_isPrefixOf {s pat : Str} (h : pat.isPrefixOf s) :
    containsSubstr s pat = true := by
  unfold containsSubstr firstIdx firstIdxAux
  rw [if_pos h]
  rfl

theorem containsSubstr_append_right {a b pat : Str}
    (h : containsSubstr b pat = true) : containsSubstr (a ++ b) pat = true := by
  unfold containsSubstr firstIdx at h ⊢
  induction a generalizing h with
  | nil => simpa using h
  | cons c t ih =>
    rw [List.cons_append]
    show (firstIdxAux pat 0 (c :: (t ++ b))).isSome = true
    unfold firstIdxAux
    split
    · rfl
    · show (firstIdxAux pat (0 + 1) (t ++ b)).isSome = true
      rw [firstIdxAux_isSome_shift (t ++ b) (0 + 1) 0]
      exact ih h

theorem containsSubstr_self {pat : Str} : containsSubstr pat pat = true :=
  containsSubstr_of_isPrefixOf (List.isPrefixOf_iff_prefix.mpr List.prefix_rfl)

theorem containsSubstr_mid {a b pat : Str} :
    containsSubstr (a ++ (pat ++ b)) pat = true :=
  containsSubstr_append_right
    (containsSubstr_of_isPrefixOf (List.isPrefixOf_iff_prefix.mpr (List.prefix_append pat b)))

theorem mem_trimL {x : Char} {s : Str} (h : x ∈ trimL s) : x ∈ s := by
  unfold trimL at h
  rw [List.mem_reverse] at h
  have h1 := (List.dropWhile_sublist (l := (s.dropWhile isPySpace).reverse) isPySpace).mem h
  rw [List.mem_reverse] at h1
  exact (List.dropWhile_sublist (l := s) isPySpace).mem h1

/-! Fuel-irrelevance, branch-unfolding equations, and character provenance
for the fuelled scans. -/

theorem subDashF_mono :
    ∀ (m : Nat), ∀ (n : Nat) (s : Str), s.length ≤ m → s.length ≤ n →
      subDashF m s = subDashF n s := by
  intro m
  induction m with
  | zero =>
    intro n s hm hn
    cases s with
    | nil => cases n <;> rfl
    | cons c t => simp at hm
  | succ k ih =>
    intro n s hm hn
    cases s with
    | nil => cases n <;> rfl
    | cons c t =>
      cases n with
      | zero => simp at hn
      | succ k2 =>
        have hm' : t.length ≤ k := by simpa using hm
        have hn' : t.length ≤ k2 := by simpa using hn
        rw [subDashF, subDashF]
        split
        · rename_i hc
          have hdl2 : ((c :: t).dropWhile (fun x => decide (x = '-'))).length ≤ t.length := by
            rw [List.dropWhile_cons_of_pos (by simp [hc])]
            exact (List.dropWhile_sublist _).length_le
          split
          next r2 heq =>
            rw [heq] at hdl2
            simp only [List.length_cons] at hdl2
            simp only []
            split
            · rw [ih k2 r2 (by omega) (by omega)]
            · rw [ih k2 ('>' :: r2) (by simp; omega) (by simp; omega)]
          next r heq =>
            simp only []
            rw [ih k2 ((c :: t).dropWhile (fun x => decide (x = '-')))
              (by omega) (by omega)]
        · rename_i hc
          rw [ih k2 t hm' hn']

theorem subDotsF_mono :
    ∀ (m : Nat), ∀ (n : Nat) (s : Str), s.length ≤ m → s.length ≤ n →
      subDotsF m s = subDotsF n s := by
  intro m
  induction m with
  | zero =>
    intro n s hm hn
    cases s with
    | nil => cases n <;> rfl
    | cons c t => simp at hm
  | succ k ih =>
    intro n s hm hn
    cases s with
    | nil => cases n <;> rfl
    | cons c t =>
      cases n with
      | zero => simp at hn
      | succ k2 =>
        have hm' : t.length ≤ k := by simpa using hm
        have hn' : t.length ≤ k2 := by simpa using hn
        rw [subDotsF, subDotsF]
        split
        · rename_i hc
          have hdl2 : ((c :: t).dropWhile (fun x => decide (x = '.'))).length ≤ t.length := by
            rw [List.dropWhile_cons_of_pos (by simp [hc])]
            exact (List.dropWhile_sublist _).length_le
          split
          next r2 heq =>
            rw [heq] at hdl2
            simp only [List.length_cons] at hdl2
            simp only []
            split
            · rw [ih k2 r2 (by omega) (by omega)]
            · rw [ih k2 ('>' :: r2) (by simp; omega) (by simp; omega)]
          next r heq =>
            simp only []
            rw [ih k2 ((c :: t).dropWhile (fun x => decide (x = '.')))
              (by omega) (by omega)]
        · rename_i hc
          rw [ih k2 t hm' hn']

theorem collapseSemisF_mono :
    ∀ (m : Nat), ∀ (n : Nat) (s : Str), s.length ≤ m → s.length ≤ n →
      collapseSemisF m s = collapseSemisF n s := by
  intro m
  induction m with
  | zero =>
    intro n s hm hn
    cases s with
    | nil => cases n <;> rfl
    | cons c t => simp at hm
  | succ k ih =>
    intro n s hm hn
    cases s with
    | nil => cases n <;> rfl
    | cons c t =>
      cases n with
      | zero => simp at hn
      | succ k2 =>
        have hm' : t.length ≤ k := by simpa using hm
        have hn' : t.length ≤ k2 := by simpa using hn
        have hdl : (t.dropWhile (fun x => decide (x = ';'))).length ≤ t.length :=
          (List.dropWhile_sublist _).length_le
        rw [collapseSemisF, collapseSemisF]
        split
        · rw [ih k2 (t.dropWhile (fun x => decide (x = ';'))) (by omega) (by omega)]
        · rw [ih k2 t hm' hn']

theorem replaceAllF_mono {pat rep : Str} :
    ∀ (m : Nat), ∀ (n : Nat) (s : Str), s.length ≤ m → s.length ≤ n →
      replaceAllF pat rep m s = replaceAllF pat rep n s := by
  intro m
  induction m with
  | zero =>
    intro n s hm hn
    cases s with
    | nil => cases n <;> rfl
    | cons c t => simp at hm
  | succ k ih =>
    intro n s hm hn
    cases s with
    | nil => cases n <;> rfl
    | cons c t =>
      cases n with
      | zero => simp at hn
      | succ k2 =>
        have hm' : t.length ≤ k := by simpa using hm
        have hn' : t.length ≤ k2 := by simpa using hn
        rw [replaceAllF, replaceAllF]
        split
        · rename_i hp
          have hp1 : 1 ≤ pat.length := by
            cases hpat : pat with
            | nil => exact absurd hpat hp.1
            | cons a b => simp
          rw [ih k2 ((c :: t).drop pat.length)
            (by simp only [List.length_drop, List.length_cons]; omega)
            (by simp only [List.length_drop, List.length_cons]; omega)]
        · rw [ih k2 t hm' hn']

/-! Branch-unfolding equations stated on the wrappers. -/

theorem subDash_nil : subDash [] = [] := rfl

theorem subDash_dash_long {t r2 : List Char}
    (hr : List.dropWhile (fun x => decide (x = '-')) ('-' :: t) = '>' :: r2)
    (hlen : 4 ≤ (('-' :: t).takeWhile (fun x => decide (x = '-'))).length) :
    subDash ('-' :: t) = '-' :: '-' :: '>' :: subDash r2 := by
  have hdl2 : r2.length + 1 ≤ t.length := by
    have := (List.dropWhile_sublist (l := t) (fun x => decide (x = '-'))).length_le
    rw [List.dropWhile_cons_of_pos (by simp)] at hr
    rw [hr] at this
    simpa using this
  show subDashF (t.length + 1) ('-' :: t) = _
  rw [subDashF, if_pos rfl, hr]
  simp only []
  rw [if_pos hlen]
  rw [subDashF_mono t.length r2.length r2 (by omega) le_rfl]
  rfl

theorem subDash_dash_short {t r2 : List Char}
    (hr : List.dropWhile (fun x => decide (x = '-')) ('-' :: t) = '>' :: r2)
    (hlen : ¬ 4 ≤ (('-' :: t).takeWhile (fun x => decide (x = '-'))).length) :
    subDash ('-' :: t) =
      ('-' :: t).takeWhile (fun x => decide (x = '-')) ++ subDash ('>' :: r2) := by
  have hdl2 : r2.length + 1 ≤ t.length := by
    have := (List.dropWhile_sublist (l := t) (fun x => decide (x = '-'))).length_le
    rw [List.dropWhile_cons_of_pos (by simp)] at hr
    rw [hr] at this
    simpa using this
  show subDashF (t.length + 1) ('-' :: t) = _
  rw [subDashF, if_pos rfl, hr]
  simp only []
  rw [if_neg hlen]
  rw [subDashF_mono t.length (r2.length + 1) ('>' :: r2) (by simp; omega) (by simp)]
  rfl

theorem subDash_dash_nogt {t : List Char}
    (hng : ∀ r2, List.dropWhile (fun x => decide (x = '-')) ('-' :: t) ≠ '>' :: r2) :
    subDash ('-' :: t) =
      ('-' :: t).takeWhile (fun x => decide (x = '-')) ++
        subDash (('-' :: t).dropWhile (fun x => decide (x = '-'))) := by
  have hdl2 : (('-' :: t).dropWhile (fun x => decide (x = '-'))).length ≤ t.length := by
    rw [List.dropWhile_cons_of_pos (by simp)]
    exact (List.dropWhile_sublist _).length_le
  show subDashF (t.length + 1) ('-' :: t) = _
  rw [subDashF, if_pos rfl]
  split
  next r2 heq => exact absurd heq (hng r2)
  next r heq =>
    simp only []
    rw [subDashF_mono t.length (('-' :: t).dropWhile (fun x => decide (x = '-'))).length
      (('-' :: t).dropWhile (fun x => decide (x = '-'))) (by omega) le_rfl]
    rfl

theorem subDash_other {c : Char} {t : List Char} (hc : ¬ c = '-') :
    subDash (c :: t) = c :: subDash t := by
  show subDashF (t.length + 1) (c :: t) = _
  rw [subDashF, if_neg hc]
  rfl

theorem subDots_nil : subDots [] = [] := rfl

theorem subDots_dot_long {t r2 : List Char}
    (hr : List.dropWhile (fun x => decide (x = '.')) ('.' :: t) = '>' :: r2)
    (hlen : 4 ≤ (('.' :: t).takeWhile (fun x => decide (x = '.'))).length) :
    subDots ('.' :: t) = '-' :: '.' :: '.' :: '-' :: '>' :: subDots r2 := by
  have hdl2 : r2.length + 1 ≤ t.length := by
    have := (List.dropWhile_sublist (l := t) (fun x => decide (x = '.'))).length_le
    rw [List.dropWhile_cons_of_pos (by simp)] at hr
    rw [hr] at this
    simpa using this
  show subDotsF (t.length + 1) ('.' :: t) = _
  rw [subDotsF, if_pos rfl, hr]
  simp only []
  rw [if_pos hlen]
  rw [subDotsF_mono t.length r2.length r2 (by omega) le_rfl]
  rfl

theorem subDots_dot_short {t r2 : List Char}
    (hr : List.dropWhile (fun x => decide (x = '.')) ('.' :: t) = '>' :: r2)
    (hlen : ¬ 4 ≤ (('.' :: t).takeWhile (fun x => decide (x = '.'))).length) :
    subDots ('.' :: t) =
      ('.' :: t).takeWhile (fun x => decide (x = '.')) ++ subDots ('>' :: r2) := by
  have hdl2 : r2.length + 1 ≤ t.length := by
    have := (List.dropWhile_sublist (l := t) (fun x => decide (x = '.'))).length_le
    rw [List.dropWhile_cons_of_pos (by simp)] at hr
    rw [hr] at this
    simpa using this
  show subDotsF (t.length + 1) ('.' :: t) = _
  rw [subDotsF, if_pos rfl, hr]
  simp only []
  rw [if_neg hlen]
  rw [subDotsF_mono t.length (r2.length + 1) ('>' :: r2) (by simp; omega) (by simp)]
  rfl

theorem subDots_dot_nogt {t : List Char}
    (hng : ∀ r2, List.dropWhile (fun x => decide (x = '.')) ('.' :: t) ≠ '>' :: r2) :
    subDots ('.' :: t) =
      ('.' :: t).takeWhile (fun x => decide (x = '.')) ++
        subDots (('.' :: t).dropWhile (fun x => decide (x = '.'))) := by
  have hdl2 : (('.' :: t).dropWhile (fun x => decide (x = '.'))).length ≤ t.length := by
    rw [List.dropWhile_cons_of_pos (by simp)]
    exact (List.dropWhile_sublist _).length_le
  show subDotsF (t.length + 1) ('.' :: t) = _
  rw [subDotsF, if_pos rfl]
  split
  next r2 heq => exact absurd heq (hng r2)
  next r heq =>
    simp only []
    rw [subDotsF_mono t.length (('.' :: t).dropWhile (fun x => decide (x = '.'))).length
      (('.' :: t).dropWhile (fun x => decide (x = '.'))) (by omega) le_rfl]
    rfl

theorem subDots_other {c : Char} {t : List Char} (hc : ¬ c = '.') :
    subDots (c :: t) = c :: subDots t := by
  show subDotsF (t.length + 1) (c :: t) = _
  rw [subDotsF, if_neg hc]
  rfl

theorem collapseSemis_nil : collapseSemis [] = [] := rfl

theorem collapseSemis_semi {t : List Char} :
    collapseSemis (';' :: t) =
      ';' :: collapseSemis (t.dropWhile (fun x => decide (x = ';'))) := by
  have hdl : (t.dropWhile (fun x => decide (x = ';'))).length ≤ t.length :=
    (List.dropWhile_sublist _).length_le
  show collapseSemisF (t.length + 1) (';' :: t) = _
  rw [collapseSemisF, if_pos rfl]
  rw [collapseSemisF_mono t.length (t.dropWhile (fun x => decide (x = ';'))).length
    (t.dropWhile (fun x => decide (x = ';'))) (by omega) le_rfl]
  rfl

theorem collapseSemis_other {c : Char} {t : List Char} (hc : ¬ c = ';') :
    collapseSemis (c :: t) = c :: collapseSemis t := by
  show collapseSemisF (t.length + 1) (c :: t) = _
  rw [collapseSemisF, if_neg hc]
  rfl

theorem replaceAll_nil {pat rep : Str} : replaceAll pat rep [] = [] := rfl

theorem replaceAll_pos {pat rep : Str} {c : Char} {t : List Char}
    (h : pat ≠ [] ∧ pat.isPrefixOf (c :: t) = true) :
    replaceAll pat rep (c :: t) =
      rep ++ replaceAll pat rep ((c :: t).drop pat.length) := by
  have hp1 : 1 ≤ pat.length := by
    cases hpat : pat with
    | nil => exact absurd hpat h.1
    | cons a b => simp
  show replaceAllF pat rep (t.length + 1) (c :: t) = _
  rw [replaceAllF, if_pos h]
  rw [replaceAllF_mono t.length ((c :: t).drop pat.length).length
    ((c :: t).drop pat.length)
    (by simp only [List.length_drop, List.length_cons]; omega) le_rfl]
  rfl

theorem replaceAll_neg {pat rep : Str} {c : Char} {t : List Char}
    (h : ¬ (pat ≠ [] ∧ pat.isPrefixOf (c :: t) = true)) :
    replaceAll pat rep (c :: t) = c :: replaceAll pat rep t := by
  show replaceAllF pat rep (t.length + 1) (c :: t) = _
  rw [replaceAllF, if_neg h]
  rfl

theorem wjAux_nil : wjAux [] = [] := rfl

theorem wjAux_some {c : Char} {t : List Char} {w1 sp w2 r3 : Str}
    (h : matchAt (c :: t) = some (w1, sp, w2, r3)) :
    wjAux (c :: t) = w1 ++ '_' :: (w2 ++ r3) := by
  rw [wjAux, h]

theorem wjAux_none_cons {c : Char} {t : List Char} (h : matchAt (c :: t) = none) :
    wjAux (c :: t) = c :: wjAux t := by
  rw [wjAux, h]

/-- Python `\s` characters are not `\w` characters. -/
theorem word_ne_space {c : Char} (h : isPySpace c = true) : isWordChar c = false := by
  unfold isPySpace at h
  simp only [Bool.or_eq_true, decide_eq_true_eq] at h
  rcases h with ((((h | h) | h) | h) | h) | h <;> subst h <;> rfl

/-- On all-whitespace text the node-id pattern never matches, so the scan
returns it unchanged: the single-replacement `wjAux` agrees with `re.sub`,
which keeps scanning after the first match but finds nothing there. -/
theorem wjAux_all_space {s : Str} (h : ∀ c ∈ s, isPySpace c = true) :
    wjAux s = s := by
  induction s with
  | nil => rfl
  | cons c t ih =>
    have hm : matchAt (c :: t) = none := by
      unfold matchAt
      have hw : isWordChar c = false := word_ne_space (h c (List.mem_cons_self _ _))
      rw [List.takeWhile_cons_of_neg (by simp [hw])]
      simp
    rw [wjAux_none_cons hm, ih (fun x hx => h x (List.mem_cons_of_mem _ hx))]

/-! Character provenance: repairs only introduce characters drawn from the
concrete replacement texts. -/

theorem mem_subDashF :
    ∀ (fuel : Nat) {x : Char} {s : Str}, x ∈ subDashF fuel s →
      x ∈ s ∨ x = '-' ∨ x = '>' := by
  intro fuel
  induction fuel with
  | zero =>
    intro x s h
    cases s with
    | nil => cases h
    | cons c t => exact Or.inl h
  | succ k ih =>
    intro x s h
    cases s with
    | nil => cases h
    | cons c t =>
      rw [subDashF] at h
      split at h
      · rename_i hc
        split at h
        next r2 heq =>
          simp only [] at h
          split at h
          · simp only [List.mem_cons] at h
            rcases h with h | h | h | h
            · exact Or.inr (Or.inl h)
            · exact Or.inr (Or.inl h)
            · exact Or.inr (Or.inr h)
            · rcases ih h with h1 | h1
              · refine Or.inl ?_
                have hx : x ∈ (c :: t).dropWhile (fun x => decide (x = '-')) := by
                  rw [heq]; exact List.mem_cons_of_mem _ h1
                exact (List.dropWhile_sublist _).subset hx
              · exact Or.inr h1
          · rcases List.mem_append.mp h with h | h
            · exact Or.inl ((List.takeWhile_sublist _).subset h)
            · rcases ih h with h1 | h1
              · refine Or.inl ?_
                have hx : x ∈ (c :: t).dropWhile (fun x => decide (x = '-')) := by
                  rw [heq]; exact h1
                exact (List.dropWhile_sublist _).subset hx
              · exact Or.inr h1
        next r heq =>
          simp only [] at h
          rcases List.mem_append.mp h with h | h
          · exact Or.inl ((List.takeWhile_sublist _).subset h)
          · rcases ih h with h1 | h1
            · exact Or.inl ((List.dropWhile_sublist _).subset h1)
            · exact Or.inr h1
      · rename_i hc
        rcases List.mem_cons.mp h with h | h
        · exact Or.inl (h ▸ List.mem_cons_self _ _)
        · rcases ih h with h1 | h1
          · exact Or.inl (List.mem_cons_of_mem _ h1)
          · exact Or.inr h1

theorem mem_subDash {x : Char} {s : Str} (h : x ∈ subDash s) :
    x ∈ s ∨ x = '-' ∨ x = '>' :=
  mem_subDashF s.length h

theorem mem_subDotsF :
    ∀ (fuel : Nat) {x : Char} {s : Str}, x ∈ subDotsF fuel s →
      x ∈ s ∨ x = '-' ∨ x = '.' ∨ x = '>' := by
  intro fuel
  induction fuel with
  | zero =>
    intro x s h
    cases s with
    | nil => cases h
    | cons c t => exact Or.inl h
  | succ k ih =>
    intro x s h
    cases s with
    | nil => cases h
    | cons c t =>
      rw [subDotsF] at h
      split at h
      · rename_i hc
        split at h
        next r2 heq =>
          simp only [] at h
          split at h
          · simp only [List.mem_cons] at h
            rcases h with h | h | h | h | h | h
            · exact Or.inr (Or.inl h)
            · exact Or.inr (Or.inr (Or.inl h))
            · exact Or.inr (Or.inr (Or.inl h))
            · exact Or.inr (Or.inl h)
            · exact Or.inr (Or.inr (Or.inr h))
            · rcases ih h with h1 | h1
              · refine Or.inl ?_
                have hx : x ∈ (c :: t).dropWhile (fun x => decide (x = '.')) := by
                  rw [heq]; exact List.mem_cons_of_mem _ h1
                exact (List.dropWhile_sublist _).subset hx
              · exact Or.inr h1
          · rcases List.mem_append.mp h with h | h
            · exact Or.inl ((List.takeWhile_sublist _).subset h)
            · rcases ih h with h1 | h1
              · refine Or.inl ?_
                have hx : x ∈ (c :: t).dropWhile (fun x => decide (x = '.')) := by
                  rw [heq]; exact h1
                exact (List.dropWhile_sublist _).subset hx
              · exact Or.inr h1
        next r heq =>
          simp only [] at h
          rcases List.mem_append.mp h with h | h
          · exact Or.inl ((List.takeWhile_sublist _).subset h)
          · rcases ih h with h1 | h1
            · exact Or.inl ((List.dropWhile_sublist _).subset h1)
            · exact Or.inr h1
      · rename_i hc
        rcases List.mem_cons.mp h with h | h
        · exact Or.inl (h ▸ List.mem_cons_self _ _)
        · rcases ih h with h1 | h1
          · exact Or.inl (List.mem_cons_of_mem _ h1)
          · exact Or.inr h1

theorem mem_subDots {x : Char} {s : Str} (h : x ∈ subDots s) :
    x ∈ s ∨ x = '-' ∨ x = '.' ∨ x = '>' :=
  mem_subDotsF s.length h

theorem mem_collapseSemisF :
    ∀ (fuel : Nat) {x : Char} {s : Str}, x ∈ collapseSemisF fuel s → x ∈ s := by
  intro fuel
  induction fuel with
  | zero =>
    intro x s h
    cases s with
    | nil => cases h
    | cons c t => exact h
  | succ k ih =>
    intro x s h
    cases s with
    | nil => cases h
    | cons c t =>
      rw [collapseSemisF] at h
      split at h
      · rename_i hc
        rcases List.mem_cons.mp h with h | h
        · subst hc
          exact h ▸ List.mem_cons_self _ _
        · exact List.mem_cons_of_mem _ ((List.dropWhile_sublist _).subset (ih h))
      · rcases List.mem_cons.mp h with h | h
        · exact h ▸ List.mem_cons_self _ _
        · exact List.mem_cons_of_mem _ (ih h)

theorem mem_collapseSemis {x : Char} {s : Str} (h : x ∈ collapseSemis s) :
    x ∈ s :=
  mem_collapseSemisF s.length h

theorem mem_replaceAllF {pat rep : Str} :
    ∀ (fuel : Nat) {x : Char} {s : Str}, x ∈ replaceAllF pat rep fuel s →
      x ∈ s ∨ x ∈ rep := by
  intro fuel
  induction fuel with
  | zero =>
    intro x s h
    cases s with
    | nil => cases h
    | cons c t => exact Or.inl h
  | succ k ih =>
    intro x s h
    cases s with
    | nil => cases h
    | cons c t =>
      rw [replaceAllF] at h
      split at h
      · rcases List.mem_append.mp h with h | h
        · exact Or.inr h
        · rcases ih h with h1 | h1
          · exact Or.inl ((List.drop_sublist _ _).subset h1)
          · exact Or.inr h1
      · rcases List.mem_cons.mp h with h | h
        · exact Or.inl (h ▸ List.mem_cons_self _ _)
        · rcases ih h with h1 | h1
          · exact Or.inl (List.mem_cons_of_mem _ h1)
          · exact Or.inr h1

theorem mem_replaceAll {pat rep : Str} {x : Char} {s : Str}
    (h : x ∈ replaceAll pat rep s) : x ∈ s ∨ x ∈ rep :=
  mem_replaceAllF s.length h

theorem mem_wjAux {x : Char} {s : Str} (h : x ∈ wjAux s) :
    x ∈ s ∨ x = '_' := by
  induction s with
  | nil => cases h
  | cons c t ih =>
    rcases hm : matchAt (c :: t) with _ | ⟨w1, sp, w2, r3⟩
    · rw [wjAux_none_cons hm] at h
      rcases List.mem_cons.mp h with h | h
      · exact Or.inl (h ▸ List.mem_cons_self _ _)
      · rcases ih h with h1 | h1
        · exact Or.inl (List.mem_cons_of_mem _ h1)
        · exact Or.inr h1
    · rw [wjAux_some hm] at h
      obtain ⟨hs, -⟩ := matchAt_spec hm
      rcases List.mem_append.mp h with h | h
      · exact Or.inl (by rw [hs]; simp [h])
      · rcases List.mem_cons.mp h with h | h
        · exact Or.inr h
        · rcases List.mem_append.mp h with h | h
          · exact Or.inl (by rw [hs]; simp [h])
          · exact Or.inl (by rw [hs]; simp [h])

theorem mem_bracketFix {x : Char} {l : Str} (h : x ∈ bracketFix l) :
    x ∈ l ∨ x = '_' := by
  unfold bracketFix at h
  split at h
  · rename_i hb
    rcases List.mem_append.mp h with h | h
    · rcases mem_wjAux h with h1 | h1
      · exact Or.inl ((List.takeWhile_sublist _).subset h1)
      · exact Or.inr h1
    · rcases List.mem_cons.mp h with h | h
      · subst h
        have hmem : '[' ∈ l := by
          have := List.contains_iff_exists_mem_beq.mp hb
          obtain ⟨a, ha, hbeq⟩ := this
          have ha2 : '[' = a := by simpa using hbeq
          exact ha2 ▸ ha
        exact Or.inl hmem
      · exact Or.inl
          (((List.drop_sublist _ _).trans (List.dropWhile_sublist _)).subset h)
  · exact Or.inl h

theorem mem_arrow_solid {x : Char} (h : x ∈ lit "-->") : x = '-' ∨ x = '>' := by
  have e : lit "-->" = ['-', '-', '>'] := rfl
  rw [e] at h
  simp only [List.mem_cons, List.not_mem_nil, or_false] at h
  rcases h with h | h | h
  · exact Or.inl h
  · exact Or.inl h
  · exact Or.inr h

theorem mem_arrow_dashed {x : Char} (h : x ∈ lit "-..->") :
    x = '-' ∨ x = '.' ∨ x = '>' := by
  have e : lit "-..->" = ['-', '.', '.', '-', '>'] := rfl
  rw [e] at h
  simp only [List.mem_cons, List.not_mem_nil, or_false] at h
  rcases h with h | h | h | h | h
  · exact Or.inl h
  · exact Or.inr (Or.inl h)
  · exact Or.inr (Or.inl h)
  · exact Or.inl h
  · exact Or.inr (Or.inr h)

/-- Any character of a repaired line is a character of the original line or
one of the characters introduced by the concrete replacements. -/
theorem mem_fixLine {x : Char} {l0 : Str} (h : x ∈ fixLine l0) :
    x ∈ l0 ∨ x = '-' ∨ x = '>' ∨ x = '.' ∨ x = '_' := by
  have step :
      ∀ y : Str, x ∈ replaceAll (lit "....>") (lit "-..->")
          (replaceAll (lit "===>") (lit "-->") (subDots (subDash y))) →
        x ∈ y ∨ x = '-' ∨ x = '>' ∨ x = '.' ∨ x = '_' := by
    intro y hy
    rcases mem_replaceAll hy with h1 | h1
    · rcases mem_replaceAll h1 with h2 | h2
      · rcases mem_subDots h2 with h3 | h3
        · rcases mem_subDash h3 with h4 | h4
          · exact Or.inl h4
          · rcases h4 with h4 | h4
            · exact Or.inr (Or.inl h4)
            · exact Or.inr (Or.inr (Or.inl h4))
        · rcases h3 with h3 | h3 | h3
          · exact Or.inr (Or.inl h3)
          · exact Or.inr (Or.inr (Or.inr (Or.inl h3)))
          · exact Or.inr (Or.inr (Or.inl h3))
      · rcases mem_arrow_solid h2 with h3 | h3
        · exact Or.inr (Or.inl h3)
        · exact Or.inr (Or.inr (Or.inl h3))
    · rcases mem_arrow_dashed h1 with h2 | h2 | h2
      · exact Or.inr (Or.inl h2)
      · exact Or.inr (Or.inr (Or.inr (Or.inl h2)))
      · exact Or.inr (Or.inr (Or.inl h2))
  unfold fixLine at h
  simp only [] at h
  split at h
  · exact Or.inl (mem_trimL h)
  · split at h
    · exact Or.inl (mem_trimL h)
    · have h1 := mem_collapseSemis h
      split at h1
      · rcases mem_bracketFix h1 with h2 | h2
        · rcases step _ h2 with h3 | h3
          · exact Or.inl (mem_trimL h3)
          · exact Or.inr h3
        · exact Or.inr (Or.inr (Or.inr (Or.inr h2)))
      · rcases step _ h1 with h3 | h3
        · exact Or.inl (mem_trimL h3)
        · exact Or.inr h3

/-! Lines produced by `split('\n')` contain no newline, and joining them
back is inverse to splitting. -/

theorem nl_not_mem_splitNl : ∀ {s l : Str}, l ∈ splitNl s → '\n' ∉ l := by
  intro s
  induction s with
  | nil =>
    intro l hl
    rw [splitNl, List.splitOn_nil] at hl
    simp only [List.mem_singleton] at hl
    subst hl
    simp
  | cons c t ih =>
    intro l hl
    have hstep : splitNl (c :: t) =
        if c == '\n' then [] :: splitNl t
        else (splitNl t).modifyHead (c :: ·) := by
      unfold splitNl List.splitOn
      rw [List.splitOnP_cons]
    rw [hstep] at hl
    by_cases hc : c = '\n'
    · rw [if_pos (by simp [hc])] at hl
      rcases List.mem_cons.mp hl with hl | hl
      · subst hl; simp
      · exact ih hl
    · rw [if_neg (by simp [hc])] at hl
      rcases he : splitNl t with _ | ⟨h0, t0⟩
      · exact absurd he (List.splitOnP_ne_nil _ t)
      · rw [he] at hl
        simp only [List.modifyHead] at hl
        rcases List.mem_cons.mp hl with hl | hl
        · subst hl
          intro hmem
          rcases List.mem_cons.mp hmem with hmem | hmem
          · exact hc hmem.symm
          · exact ih (he ▸ List.mem_cons_self h0 t0) hmem
        · exact ih (he ▸ List.mem_cons_of_mem h0 hl)

theorem splitNl_ne_nil (s : Str) : splitNl s ≠ [] :=
  List.splitOnP_ne_nil _ s

theorem splitNl_joinNl {L : List Str} (hL : L ≠ [])
    (hx : ∀ l ∈ L, '\n' ∉ l) : splitNl (joinNl L) = L := by
  unfold splitNl joinNl
  exact List.splitOn_intercalate L '\n' hx hL

/-- No line of a repaired text contains a newline. -/
theorem nl_not_mem_fixLine {l : Str} (h : '\n' ∉ l) : '\n' ∉ fixLine l := by
  intro hmem
  rcases mem_fixLine hmem with hm | hm | hm | hm | hm
  · exact h hm
  all_goals exact absurd hm (by decide)

/-! ### Claim C8: the size-tiered completeness table -/

/-- A `flowchart TD` diagram with three bracketed node lines and no
subgraph. -/
def diagSimple : Str := lit "flowchart TD\nNodeA[a]\nNodeB[b]\nNodeC[c]"

/-- A repository description whose `file_contents` has exactly 5 entries. -/
def repoFive : RepoData :=
  { name := lit "five", language := lit "py", description := lit "d",
    stars := 0, forks := 0, readme := [], file_structure := .nil,
    file_contents := (List.range 5).map (fun i => (natToStr i, FileData.str [])) }

/-- A `flowchart TD` diagram with one subgraph block and 40 bracketed node
lines. -/
def diagDense : Str :=
  joinNl ([lit "flowchart TD", lit "subgraph Core"] ++
    (List.range 40).map (fun i => lit "N" ++ natToStr i ++ lit "[x]") ++
    [lit "end"])

/-- A repository description whose `file_contents` has exactly 60 entries. -/
def repoSixty : RepoData :=
  { name := lit "sixty", language := lit "py", description := lit "d",
    stars := 0, forks := 0, readme := [], file_structure := .nil,
    file_contents := (List.range 60).map (fun i => (natToStr i, FileData.str [])) }

/-- C8: `validate_diagram_completeness` implements the size-tiered
minimum-node table: a `flowchart TD` diagram with 3 bracketed node lines,
no subgraph, against a repository with 5 files is invalid with exactly the
"too simple" issue (threshold 15) and no "missing organization" issue; a
diagram with 40 node lines and a subgraph block against a repository with
60 files is valid (threshold 35, organization present). -/
theorem completeness_tiers :
    validate_diagram_completeness diagSimple repoFive =
      (false, [lit "Diagram too simple: only 3 components (need 15+)"]) ∧
    validate_diagram_completeness diagDense repoSixty = (true, []) := by
  constructor
  · decide
  · decide

/-! ### Claim C4: extraction with absent or malformed markers -/

/-- A reply in which the end marker precedes the start marker. -/
def malformedReply : Str := lit "hello [DIAGRAM_END] mid [DIAGRAM_START] tail"

/-- C4 counterexample: with both markers present but the end marker before
the start marker, `extract_diagram_from_response` does not return the
entire trimmed text, and it does produce a diagram value (the empty
string, which is not the absent diagram `none`) — contradicting the claim
that any malformed-marker text yields the whole trimmed text as answer and
no diagram. -/
theorem extract_malformed_counterexample :
    ¬ (extract_diagram_from_response malformedReply =
        (trimL malformedReply, none, none)) ∧
    (extract_diagram_from_response malformedReply).2.1 = some [] ∧
    (extract_diagram_from_response malformedReply).1 =
      lit "hello [DIAGRAM_END] mid" := by
  refine ⟨?_, by decide, by decide⟩
  decide

/-- C4 amended: if either delimiter marker is absent from the trimmed
reply, the entire trimmed text is the answer and no diagram is produced;
but when both markers are present with the end marker before the start
marker, the answer is the trimmed text before the start marker and the
diagram is the empty string (classified "custom"), not absent. -/
theorem extract_no_marker (s : Str)
    (h : containsSubstr (trimL s) diagramStartMarker = false ∨
      containsSubstr (trimL s) diagramEndMarker = false) :
    extract_diagram_from_response s = (trimL s, none, none) ∧
    extract_diagram_from_response malformedReply =
      (lit "hello [DIAGRAM_END] mid", some [], some (lit "custom")) := by
  constructor
  · unfold extract_diagram_from_response
    rcases h with h | h <;> simp [h]
  · decide

/-- Witness for `extract_no_marker` at a concrete marker-free reply. -/
theorem extract_no_marker_witness :
    (containsSubstr (trimL (lit "  plain answer ")) diagramStartMarker = false ∨
      containsSubstr (trimL (lit "  plain answer ")) diagramEndMarker = false) ∧
    extract_diagram_from_response (lit "  plain answer ") =
      (trimL (lit "  plain answer "), none, none) :=
  ⟨Or.inl (by decide), (extract_no_marker (lit "  plain answer ") (Or.inl (by decide))).1⟩

/-! ### Claim C3: line counts under repair -/

/-- C3 counterexample: repair does not preserve the line count of the raw
input — a trailing newline is removed by the initial `strip`, so the
output has fewer lines than the input. -/
theorem fix_line_count_counterexample :
    (splitNl ( fix_mermaid_syntax (lit "a\n"))).length ≠
      (splitNl (lit "a\n")).length := by
  decide

/-- C3 amended: after the initial whole-text `strip` and code-fence
removal, repair is line-by-line: the lines of the output are exactly the
per-line repairs of the lines of the preprocessed text, and in particular
the line count of the preprocessed text is preserved.  (The raw input's
line count is not preserved in general: leading/trailing whitespace and
code fences are removed first.) -/
theorem fix_preserves_lines (s : Str) :
    splitNl ( fix_mermaid_syntax s) = (splitNl (preprocess s)).map fixLine ∧
    (splitNl ( fix_mermaid_syntax s)).length = (splitNl (preprocess s)).length := by
  have h1 : splitNl ( fix_mermaid_syntax s) = (splitNl (preprocess s)).map fixLine := by
    unfold fix_mermaid_syntax
    apply splitNl_joinNl
    · intro hc
      exact splitNl_ne_nil (preprocess s) (List.map_eq_nil_iff.mp hc)
    · intro l hl
      obtain ⟨l', hl', rfl⟩ := List.mem_map.mp hl
      exact nl_not_mem_fixLine (nl_not_mem_splitNl hl')
  exact ⟨h1, by rw [h1]; simp⟩

/-! ### Claim C5: the file-contents character cap -/

/-- A repository description with exactly one file. -/
def repoOne : RepoData :=
  { name := lit "one", language := lit "py", description := lit "d",
    stars := 0, forks := 0, readme := [], file_structure := .nil,
    file_contents := [(lit "a.py", FileData.str (lit "print"))] }

/-- Modelled from the spec: a stand-in for the collaborator
`format_file_contents` of `github_service` (a pure text-rendering function
outside this repository's sources), here rendering to an oversized text of
300,001 characters. -/
def hugeFmt : List (Str × FileData) → Nat → Str :=
  fun _ _ => List.replicate 300001 'x'

/-- When the formatted text exceeds the character cap and the file map is
non-empty, `build_trimmed_file_contents` truncates at the cap and appends
the marker (generic helper, proved without evaluating the formatter). -/
theorem build_trimmed_eq_of_long
    (fmtC : List (Str × FileData) → Nat → Str) (repo : RepoData)
    (mc mf : Nat) (h0 : repo.file_contents.length ≠ 0)
    (hl : mc < (fmtC (trimmedFiles repo.file_contents mf) mf).length) :
    build_trimmed_file_contents fmtC repo mc mf =
      (fmtC (trimmedFiles repo.file_contents mf) mf).take mc ++
        truncMarker mf repo.file_contents.length := by
  unfold build_trimmed_file_contents
  rw [if_neg h0, if_pos (by omega)]

theorem build_trimmed_len_of_long
    (fmtC : List (Str × FileData) → Nat → Str) (repo : RepoData)
    (mc mf : Nat) (h0 : repo.file_contents.length ≠ 0)
    (hl : mc < (fmtC (trimmedFiles repo.file_contents mf) mf).length) :
    (build_trimmed_file_contents fmtC repo mc mf).length =
      mc + (truncMarker mf repo.file_contents.length).length := by
  rw [build_trimmed_eq_of_long fmtC repo mc mf h0 hl]
  simp only [List.length_append, List.length_take]
  omega

theorem hugeFmt_long {l : List (Str × FileData)} {n : Nat} :
    MAX_FILE_CONTENTS_CHARS < (hugeFmt l n).length := by
  unfold hugeFmt
  rw [List.length_replicate]
  decide

/-- C5 counterexample: for a single oversized file, the claim fails — the
marker reads `showing 40/1` (naming the cap, not the one file actually
shown), and the returned length is 300,000 plus the marker length, which
exceeds the 300,000 ceiling. -/
theorem build_trimmed_cap_counterexample :
    ¬ (build_trimmed_file_contents hugeFmt repoOne MAX_FILE_CONTENTS_CHARS
          MAX_FILES_IN_PROMPT =
        (hugeFmt (trimmedFiles repoOne.file_contents MAX_FILES_IN_PROMPT)
            MAX_FILES_IN_PROMPT).take MAX_FILE_CONTENTS_CHARS ++
          truncMarker 1 1 ∧
      (build_trimmed_file_contents hugeFmt repoOne MAX_FILE_CONTENTS_CHARS
          MAX_FILES_IN_PROMPT).length ≤ MAX_FILE_CONTENTS_CHARS) := by
  rintro ⟨-, h2⟩
  rw [build_trimmed_len_of_long hugeFmt repoOne MAX_FILE_CONTENTS_CHARS
    MAX_FILES_IN_PROMPT (by decide) hugeFmt_long] at h2
  have hm : (truncMarker MAX_FILES_IN_PROMPT repoOne.file_contents.length).length
      = 64 := by decide
  rw [hm] at h2
  revert h2
  decide

/-- C5 amended: for any formatter output longer than the 300,000-character
cap (and a non-empty file map), `build_trimmed_file_contents` returns
exactly the first 300,000 characters of the formatted text followed by the
fixed truncation marker `showing {max_files}/{total}` — the marker names
the `max_files` cap (40), not the number of files actually shown — and the
returned length is exactly 300,000 plus the marker length, exceeding the
300,000 ceiling by the marker. -/
theorem build_trimmed_truncation
    (fmtC : List (Str × FileData) → Nat → Str) (repo : RepoData)
    (h0 : repo.file_contents.length ≠ 0)
    (hlong : MAX_FILE_CONTENTS_CHARS <
      (fmtC (trimmedFiles repo.file_contents MAX_FILES_IN_PROMPT)
        MAX_FILES_IN_PROMPT).length) :
    build_trimmed_file_contents fmtC repo MAX_FILE_CONTENTS_CHARS
        MAX_FILES_IN_PROMPT =
      (fmtC (trimmedFiles repo.file_contents MAX_FILES_IN_PROMPT)
          MAX_FILES_IN_PROMPT).take MAX_FILE_CONTENTS_CHARS ++
        truncMarker MAX_FILES_IN_PROMPT repo.file_contents.length ∧
    (build_trimmed_file_contents fmtC repo MAX_FILE_CONTENTS_CHARS
        MAX_FILES_IN_PROMPT).length =
      MAX_FILE_CONTENTS_CHARS +
        (truncMarker MAX_FILES_IN_PROMPT repo.file_contents.length).length :=
  ⟨build_trimmed_eq_of_long fmtC repo MAX_FILE_CONTENTS_CHARS
      MAX_FILES_IN_PROMPT h0 hlong,
    build_trimmed_len_of_long fmtC repo MAX_FILE_CONTENTS_CHARS
      MAX_FILES_IN_PROMPT h0 hlong⟩

/-- Witness for `build_trimmed_truncation` at the concrete oversized
formatter. -/
theorem build_trimmed_truncation_witness :
    repoOne.file_contents.length ≠ 0 ∧
    MAX_FILE_CONTENTS_CHARS <
      (hugeFmt (trimmedFiles repoOne.file_contents MAX_FILES_IN_PROMPT)
        MAX_FILES_IN_PROMPT).length ∧
    (build_trimmed_file_contents hugeFmt repoOne MAX_FILE_CONTENTS_CHARS
        MAX_FILES_IN_PROMPT).length =
      MAX_FILE_CONTENTS_CHARS +
        (truncMarker MAX_FILES_IN_PROMPT repoOne.file_contents.length).length :=
  ⟨by decide, hugeFmt_long,
    (build_trimmed_truncation hugeFmt repoOne (by decide) hugeFmt_long).2⟩

/-! ### The retry loop: step lemmas and the bounded-invocation invariant -/

/-- Every non-returning iteration of the loop body increments the attempt
counter by exactly one. -/
theorem loopStep_again_attempt
    {fmtC : List (Str × FileData) → Nat → Str} {repo : RepoData}
    {context : Str} {min_nodes : Nat} {out : Except Str Str}
    {st st' : LoopState}
    (h : loopStep fmtC repo context min_nodes out st = .again st') :
    st'.attempt = st.attempt + 1 := by
  unfold loopStep at h
  rcases out with e | a
  · simp only [] at h
    split at h
    · cases h; rfl
    · split at h
      · cases h; rfl
      · cases h
  · simp only [] at h
    split at h
    · split at h
      · cases h; rfl
      · split at h
        · cases h; rfl
        · cases h
    · cases h

/-- On the final allowed attempt the loop body always returns. -/
theorem loopStep_done_of_last
    {fmtC : List (Str × FileData) → Nat → Str} {repo : RepoData}
    {context : Str} {min_nodes : Nat} {out : Except Str Str} {st : LoopState}
    (h2 : st.attempt = MAX_RETRIES - 1) :
    ∃ r, loopStep fmtC repo context min_nodes out st = .done r := by
  unfold loopStep
  rcases out with e | a
  · simp only []
    rw [if_neg (by simp [h2]), if_neg (by simp [h2])]
    exact ⟨_, rfl⟩
  · simp only []
    split
    · rw [if_neg (by simp [h2]), if_neg (by simp [h2])]
      exact ⟨_, rfl⟩
    · exact ⟨_, rfl⟩

/-- The loop invariant: with `attempt + fuel = MAX_RETRIES` and at least one
iteration of fuel left, the loop returns from inside (never exhausting the
while-condition), makes between 1 and `fuel` invocations, and the number of
invocations made is exactly one more than the attempts consumed. -/
theorem runLoop_spec (oracle : Oracle)
    (fmtC : List (Str × FileData) → Nat → Str) (repo : RepoData)
    (context : Str) (min_nodes : Nat) :
    ∀ (fuel k : Nat) (st : LoopState),
      st.attempt + fuel = MAX_RETRIES → 1 ≤ fuel →
      ∃ r a tr,
        runLoop oracle fmtC repo context min_nodes fuel k st = (.finished r a, tr) ∧
        1 ≤ tr.length ∧ tr.length ≤ fuel ∧
        a + 1 = st.attempt + tr.length := by
  intro fuel
  induction fuel with
  | zero => intro k st hsum hpos; omega
  | succ f ih =>
    intro k st hsum hpos
    rcases hstep : loopStep fmtC repo context min_nodes (oracle k st.messages) st
      with r | st'
    · refine ⟨r, st.attempt, [st.messages], ?_, by simp, by simp, by simp⟩
      rw [runLoop, hstep]
    · have hatt := loopStep_again_attempt hstep
      rcases Nat.eq_zero_or_pos f with hf | hf
      · subst hf
        have h2 : st.attempt = MAX_RETRIES - 1 := by
          unfold MAX_RETRIES at hsum ⊢
          omega
        obtain ⟨r, hr⟩ := @loopStep_done_of_last fmtC repo context min_nodes
          (oracle k st.messages) st h2
        rw [hstep] at hr
        cases hr
      · obtain ⟨r, a, tr, hrun, h1, h2, h3⟩ := ih (k + 1) st' (by omega) hf
        refine ⟨r, a, st.messages :: tr, ?_, by simp, by simp; omega, ?_⟩
        · rw [runLoop, hstep]
          simp only []
          rw [hrun]
        · simp only [List.length_cons]
          omega

/-- C7: `analyze_repo_with_chat` always terminates with a result returned
from inside the retry loop, performs between 1 and 3 model invocations, and
the number of invocations is exactly one more than the number of attempts
consumed at the point of return — every counted retry corresponds to
exactly one model call. -/
theorem analyze_bounded_invocations (oracle : Oracle)
    (fmtS : FSList → Str)
    (fmtC : List (Str × FileData) → Nat → Str)
    (repo : RepoData) (question : Str) (hist : List (Str × Str)) :
    ∃ r a tr,
      runLoop oracle fmtC repo (mkContext fmtS fmtC repo)
        (max 15 ((extract_detailed_repo_components repo).all_files.length / 2))
        MAX_RETRIES 0
        ⟨Msg.system (mkContext fmtS fmtC repo) ::
          (mkHistoryMsgs hist ++ [Msg.human question]), 0, []⟩ =
        (.finished r a, tr) ∧
      analyze_repo_with_chat oracle fmtS fmtC repo question hist = (r, tr) ∧
      tr.length = a + 1 ∧ 1 ≤ tr.length ∧ tr.length ≤ MAX_RETRIES := by
  obtain ⟨r, a, tr, hrun, h1, h2, h3⟩ :=
    runLoop_spec oracle fmtC repo (mkContext fmtS fmtC repo)
      (max 15 ((extract_detailed_repo_components repo).all_files.length / 2))
      MAX_RETRIES 0
      ⟨Msg.system (mkContext fmtS fmtC repo) ::
        (mkHistoryMsgs hist ++ [Msg.human question]), 0, []⟩ rfl (by decide)
  have h3' : a + 1 = 0 + tr.length := h3
  refine ⟨r, a, tr, hrun, ?_, by omega, h1, h2⟩
  unfold analyze_repo_with_chat
  simp only []
  rw [hrun]

/-- C10: the final fallback return (`"Unable to generate response"`) is
unreachable: for every input and every sequence of model outcomes, the
`while attempt < max_retries` condition never exhausts — the loop returns
from inside within the three allowed iterations. -/
theorem fallback_unreachable (oracle : Oracle)
    (fmtS : FSList → Str)
    (fmtC : List (Str × FileData) → Nat → Str)
    (repo : RepoData) (question : Str) (hist : List (Str × Str)) :
    ∀ st' : LoopState,
      (runLoop oracle fmtC repo (mkContext fmtS fmtC repo)
        (max 15 ((extract_detailed_repo_components repo).all_files.length / 2))
        MAX_RETRIES 0
        ⟨Msg.system (mkContext fmtS fmtC repo) ::
          (mkHistoryMsgs hist ++ [Msg.human question]), 0, []⟩).1 ≠
      .exhausted st' := by
  intro st' hc
  obtain ⟨r, a, tr, hrun, -⟩ :=
    runLoop_spec oracle fmtC repo (mkContext fmtS fmtC repo)
      (max 15 ((extract_detailed_repo_components repo).all_files.length / 2))
      MAX_RETRIES 0
      ⟨Msg.system (mkContext fmtS fmtC repo) ::
        (mkHistoryMsgs hist ++ [Msg.human question]), 0, []⟩ rfl (by decide)
  rw [hrun] at hc
  cases hc

/-! ### Claim C6: the always-overflowing model -/

theorem loopStep_error_ctx_retry
    {fmtC : List (Str × FileData) → Nat → Str} {repo : RepoData}
    {context : Str} {min_nodes : Nat} {e : Str} {st : LoopState}
    (he : isCtxLenErr e = true) (ha : st.attempt < MAX_RETRIES - 1) :
    loopStep fmtC repo context min_nodes (.error e) st =
      .again ⟨st.messages.set 0 (.system (degradedContext fmtC repo context)),
        st.attempt + 1, st.answer⟩ := by
  unfold loopStep
  simp only []
  rw [if_pos ⟨he, ha⟩]

theorem loopStep_error_last
    {fmtC : List (Str × FileData) → Nat → Str} {repo : RepoData}
    {context : Str} {min_nodes : Nat} {e : Str} {st : LoopState}
    (ha : ¬ st.attempt < MAX_RETRIES - 1) :
    loopStep fmtC repo context min_nodes (.error e) st =
      .done (errorResult repo e) := by
  unfold loopStep
  simp only []
  rw [if_neg (by intro hc; exact ha hc.2), if_neg ha]

/-- The degraded rebuild contains the literal `reduced due to token limit`. -/
theorem degraded_contains_reduced
    (fmtC : List (Str × FileData) → Nat → Str) (repo : RepoData)
    (context : Str) :
    containsSubstr (degradedContext fmtC repo context)
      (lit "reduced due to token limit") = true := by
  unfold degradedContext
  have hsplit : lit "FILE CONTENTS (reduced due to token limit):\n" =
      lit "FILE CONTENTS (" ++ (lit "reduced due to token limit" ++ lit "):\n") := by
    decide
  rw [hsplit]
  simp only [List.append_assoc]
  apply containsSubstr_append_right
  apply containsSubstr_append_right
  exact containsSubstr_of_isPrefixOf
    (List.isPrefixOf_iff_prefix.mpr (List.prefix_append _ _))

/-- C6: against a model that always raises a context-length failure,
exactly 3 invocations are performed; the system message of the second
invocation contains the literal `reduced due to token limit`; and the final
result has `has_diagram = false` with an answer containing the error
text. -/
theorem always_overflow_scenario
    (fmtS : FSList → Str)
    (fmtC : List (Str × FileData) → Nat → Str)
    (repo : RepoData) (question : Str) (hist : List (Str × Str)) (e : Str)
    (he : isCtxLenErr e = true) :
    (analyze_repo_with_chat (fun _ _ => .error e) fmtS fmtC repo question hist).2.length
        = 3 ∧
    (match (analyze_repo_with_chat (fun _ _ => .error e) fmtS fmtC repo
        question hist).2.get? 1 with
      | some (m :: _) => containsSubstr m.content (lit "reduced due to token limit")
      | _ => false) = true ∧
    (analyze_repo_with_chat (fun _ _ => .error e) fmtS fmtC repo
      question hist).1.has_diagram = false ∧
    containsSubstr
      (analyze_repo_with_chat (fun _ _ => .error e) fmtS fmtC repo
        question hist).1.answer e = true := by
  have ha0 : (0 : Nat) < MAX_RETRIES - 1 := by decide
  have ha1 : (1 : Nat) < MAX_RETRIES - 1 := by decide
  have ha2 : ¬ (2 : Nat) < MAX_RETRIES - 1 := by decide
  set ctx := mkContext fmtS fmtC repo with hctx
  set mn := max 15 ((extract_detailed_repo_components repo).all_files.length / 2)
    with hmn
  set dc := degradedContext fmtC repo ctx with hdc
  set rest := mkHistoryMsgs hist ++ [Msg.human question] with hrest
  have h3 : runLoop (fun _ _ => .error e) fmtC repo ctx mn 1 2
      ⟨Msg.system dc :: rest, 2, []⟩ =
      (.finished (errorResult repo e) 2, [Msg.system dc :: rest]) := by
    show runLoop (fun _ _ => .error e) fmtC repo ctx mn (0 + 1) 2
      ⟨Msg.system dc :: rest, 2, []⟩ = _
    rw [runLoop, loopStep_error_last ha2]
  have h2 : runLoop (fun _ _ => .error e) fmtC repo ctx mn 2 1
      ⟨Msg.system dc :: rest, 1, []⟩ =
      (.finished (errorResult repo e) 2,
        [Msg.system dc :: rest, Msg.system dc :: rest]) := by
    show runLoop (fun _ _ => .error e) fmtC repo ctx mn (1 + 1) 1
      ⟨Msg.system dc :: rest, 1, []⟩ = _
    rw [runLoop, loopStep_error_ctx_retry he ha1]
    simp only [List.set_cons_zero, Nat.reduceAdd]
    rw [h3]
  have hrun : runLoop (fun _ _ => .error e) fmtC repo ctx mn MAX_RETRIES 0
      ⟨Msg.system ctx :: rest, 0, []⟩ =
      (.finished (errorResult repo e) 2,
        [Msg.system ctx :: rest, Msg.system dc :: rest, Msg.system dc :: rest]) := by
    show runLoop (fun _ _ => .error e) fmtC repo ctx mn (2 + 1) 0
      ⟨Msg.system ctx :: rest, 0, []⟩ = _
    rw [runLoop, loopStep_error_ctx_retry he ha0]
    simp only [List.set_cons_zero, Nat.reduceAdd]
    rw [h2]
  have hres : analyze_repo_with_chat (fun _ _ => .error e) fmtS fmtC repo
      question hist =
      (errorResult repo e,
        [Msg.system ctx :: rest, Msg.system dc :: rest, Msg.system dc :: rest]) := by
    unfold analyze_repo_with_chat
    simp only []
    rw [← hctx, ← hmn, ← hrest, hrun]
  rw [hres]
  refine ⟨rfl, ?_, rfl, ?_⟩
  · simp only [List.get?]
    show containsSubstr (Msg.system dc).content (lit "reduced due to token limit")
      = true
    rw [hdc]
    exact degraded_contains_reduced fmtC repo ctx
  · show containsSubstr (lit "Error generating response: " ++ e) e = true
    exact containsSubstr_append_right containsSubstr_self

/-- Witness for `always_overflow_scenario` at a concrete overflowing
error. -/
theorem always_overflow_scenario_witness :
    isCtxLenErr (lit "maximum context length is 128000 tokens") = true ∧
    (analyze_repo_with_chat (fun _ _ =>
        .error (lit "maximum context length is 128000 tokens"))
      (fun _ => lit "TREE") (fun _ _ => lit "FILES") repoOne (lit "q") []).2.length
      = 3 := by
  refine ⟨by decide, ?_⟩
  exact (always_overflow_scenario (fun _ => lit "TREE") (fun _ _ => lit "FILES")
    repoOne (lit "q") [] (lit "maximum context length is 128000 tokens")
    (by decide)).1

/-! ### Claim C9: empty diagram between markers -/

theorem clean_mermaid_nil : clean_mermaid_code [] = [] := by decide

theorem detect_nil : detect_diagram_type [] = lit "custom" := by decide

/-- When both markers occur and the slice between them trims to nothing,
extraction yields the empty diagram, classified "custom". -/
theorem extract_empty_between {resp : Str} {i j : Nat}
    (hi : firstIdx (trimL resp) diagramStartMarker = some i)
    (hj : firstIdx (trimL resp) diagramEndMarker = some j)
    (hween : trimL (((trimL resp).drop (i + diagramStartMarker.length)).take
      (j - (i + diagramStartMarker.length))) = []) :
    extract_diagram_from_response resp =
      (trimL ((trimL resp).take i), some [], some (lit "custom")) := by
  unfold extract_diagram_from_response
  simp only []
  have hci : containsSubstr (trimL resp) diagramStartMarker = true := by
    rw [containsSubstr, hi]; rfl
  have hcj : containsSubstr (trimL resp) diagramEndMarker = true := by
    rw [containsSubstr, hj]; rfl
  rw [hci, hcj]
  simp only [Bool.and_self, if_pos]
  rw [hi, hj]
  simp only []
  rw [hween, clean_mermaid_nil, detect_nil]

/-- The loop body on a reply whose extraction yields the empty diagram:
the diagram is falsy, so the validators and corrective retries are
skipped, and the result is returned at once with the empty diagram counted
as present. -/
theorem loopStep_ok_empty
    {fmtC : List (Str × FileData) → Nat → Str} {repo : RepoData}
    {context : Str} {min_nodes : Nat} {a ans dt : Str} {st : LoopState}
    (hext : extract_diagram_from_response a = (ans, some [], some dt)) :
    loopStep fmtC repo context min_nodes (.ok a) st =
      .done (successResult repo ans (some []) (some dt)) := by
  unfold loopStep
  simp only []
  rw [hext]
  simp only []
  rw [if_neg (by decide)]

/-- C9: if the first model reply contains both markers in order with only
whitespace between them, `analyze_repo_with_chat` returns after a single
invocation — no corrective retry — with `has_diagram = true` and
`mermaid_code` equal to the empty string: the empty extracted diagram
counts as present at the public interface but the syntax validator,
completeness validator, and retry logic never see it. -/
theorem empty_diagram_scenario (oracle : Oracle)
    (fmtS : FSList → Str)
    (fmtC : List (Str × FileData) → Nat → Str)
    (repo : RepoData) (question : Str) (hist : List (Str × Str))
    (resp : Str) (i j : Nat)
    (hresp : oracle 0 (Msg.system (mkContext fmtS fmtC repo) ::
      (mkHistoryMsgs hist ++ [Msg.human question])) = .ok resp)
    (hi : firstIdx (trimL resp) diagramStartMarker = some i)
    (hj : firstIdx (trimL resp) diagramEndMarker = some j)
    (hween : trimL (((trimL resp).drop (i + diagramStartMarker.length)).take
      (j - (i + diagramStartMarker.length))) = []) :
    (analyze_repo_with_chat oracle fmtS fmtC repo question hist).1.has_diagram
        = true ∧
    (analyze_repo_with_chat oracle fmtS fmtC repo question hist).1.mermaid_code
        = some [] ∧
    (analyze_repo_with_chat oracle fmtS fmtC repo question hist).1.diagram_type
        = some (lit "custom") ∧
    (analyze_repo_with_chat oracle fmtS fmtC repo question hist).2.length = 1 := by
  set ctx := mkContext fmtS fmtC repo with hctx
  set mn := max 15 ((extract_detailed_repo_components repo).all_files.length / 2)
    with hmn
  set rest := mkHistoryMsgs hist ++ [Msg.human question] with hrest
  have hrun : runLoop oracle fmtC repo ctx mn MAX_RETRIES 0
      ⟨Msg.system ctx :: rest, 0, []⟩ =
      (.finished (successResult repo (trimL ((trimL resp).take i)) (some [])
        (some (lit "custom"))) 0, [Msg.system ctx :: rest]) := by
    show runLoop oracle fmtC repo ctx mn (2 + 1) 0
      ⟨Msg.system ctx :: rest, 0, []⟩ = _
    rw [runLoop]
    show (match loopStep fmtC repo ctx mn (oracle 0 (Msg.system ctx :: rest))
        ⟨Msg.system ctx :: rest, 0, []⟩ with
      | StepRes.done r => (LoopOut.finished r 0, [Msg.system ctx :: rest])
      | StepRes.again st' =>
        let res := runLoop oracle fmtC repo ctx mn 2 1 st'
        (res.1, (Msg.system ctx :: rest) :: res.2)) = _
    rw [hresp, loopStep_ok_empty (extract_empty_between hi hj hween)]
  have hres : analyze_repo_with_chat oracle fmtS fmtC repo question hist =
      (successResult repo (trimL ((trimL resp).take i)) (some [])
        (some (lit "custom")), [Msg.system ctx :: rest]) := by
    unfold analyze_repo_with_chat
    simp only []
    rw [← hctx, ← hmn, ← hrest, hrun]
  rw [hres]
  exact ⟨rfl, rfl, rfl, rfl⟩

/-- A model that always replies with markers enclosing only whitespace. -/
def emptyDiagOracle : Oracle :=
  fun _ _ => .ok (lit "ans [DIAGRAM_START]  [DIAGRAM_END]")

/-- Witness for `empty_diagram_scenario` at a concrete whitespace-only
diagram reply. -/
theorem empty_diagram_scenario_witness :
    emptyDiagOracle 0
      (Msg.system (mkContext (fun _ => lit "TREE") (fun _ _ => lit "FILES")
        repoOne) :: (mkHistoryMsgs [] ++ [Msg.human (lit "q")])) =
      Except.ok (lit "ans [DIAGRAM_START]  [DIAGRAM_END]") ∧
    (analyze_repo_with_chat emptyDiagOracle
      (fun _ => lit "TREE") (fun _ _ => lit "FILES") repoOne (lit "q")
      []).1.has_diagram = true := by
  refine ⟨rfl, ?_⟩
  exact (empty_diagram_scenario emptyDiagOracle
    (fun _ => lit "TREE") (fun _ _ => lit "FILES") repoOne (lit "q") []
    (lit "ans [DIAGRAM_START]  [DIAGRAM_END]") 4 21 rfl (by decide) (by decide)
    (by decide)).1

/-! ### Claim C2: idempotence of the repairer -/

/-- The head of a `dropWhile` residue fails the predicate. -/
theorem head_dropWhile_not {p : Char → Bool} :
    ∀ {l : List Char} {c : Char}, (l.dropWhile p).head? = some c → p c = false := by
  intro l
  induction l with
  | nil => intro c h; simp [List.dropWhile] at h
  | cons a t ih =>
    intro c h
    cases hp : p a with
    | true =>
      rw [List.dropWhile_cons_of_pos hp] at h
      exact ih h
    | false =>
      rw [List.dropWhile_cons_of_neg (by rw [hp]; exact Bool.false_ne_true)] at h
      simp only [List.head?_cons, Option.some.injEq] at h
      subst h
      exact hp

/-- A nonempty text never starts with whitespace. -/
def headNS (s : Str) : Prop := ∀ c, s.head? = some c → isPySpace c = false

/-- A nonempty text never ends with whitespace. -/
def lastNS (s : Str) : Prop := ∀ c, s.getLast? = some c → isPySpace c = false

theorem getLast?_cons_of_ne_nil {α : Type} {c : α} {t : List α} (h : t ≠ []) :
    (c :: t).getLast? = t.getLast? :=
  List.getLast?_append_of_ne_nil [c] h

theorem headNS_trimL (s : Str) : headNS (trimL s) := by
  intro c hc
  unfold trimL at hc
  rw [List.head?_reverse] at hc
  have hne : List.dropWhile isPySpace (s.dropWhile isPySpace).reverse ≠ [] := by
    intro h0
    rw [h0] at hc
    cases hc
  obtain ⟨w, hw⟩ :=
    List.dropWhile_suffix (l := (s.dropWhile isPySpace).reverse) isPySpace
  have h2 : ((s.dropWhile isPySpace).reverse).getLast? = some c := by
    rw [← hw, List.getLast?_append_of_ne_nil w hne]
    exact hc
  rw [List.getLast?_reverse] at h2
  exact head_dropWhile_not h2

theorem lastNS_trimL (s : Str) : lastNS (trimL s) := by
  intro c hc
  unfold trimL at hc
  rw [List.getLast?_reverse] at hc
  exact head_dropWhile_not hc

theorem trimL_eq_self {s : Str} (h1 : headNS s) (h2 : lastNS s) : trimL s = s := by
  unfold trimL
  have e1 : s.dropWhile isPySpace = s := by
    cases hs : s with
    | nil => rfl
    | cons c t =>
      have hc := h1 c (by rw [hs]; rfl)
      rw [List.dropWhile_cons_of_neg (by rw [hc]; exact Bool.false_ne_true)]
  have e2 : (s.reverse).dropWhile isPySpace = s.reverse := by
    cases hs : s.reverse with
    | nil => rfl
    | cons c t =>
      have hc0 : s.getLast? = some c := by rw [← List.head?_reverse, hs]; rfl
      have hc := h2 c hc0
      rw [List.dropWhile_cons_of_neg (by rw [hc]; exact Bool.false_ne_true)]
  rw [e1, e2, List.reverse_reverse]

theorem all_space_of_trimL_eq_nil {l : Str} (h : trimL l = []) :
    ∀ x ∈ l, isPySpace x = true := by
  unfold trimL at h
  rw [List.reverse_eq_nil_iff] at h
  have h2 := List.dropWhile_eq_nil_iff.mp h
  intro x hx
  have hx2 : x ∈ l.takeWhile isPySpace ++ l.dropWhile isPySpace := by
    rw [List.takeWhile_append_dropWhile]
    exact hx
  rcases List.mem_append.mp hx2 with h3 | h3
  · exact List.mem_takeWhile_imp h3
  · exact h2 x (List.mem_reverse.mpr h3)

theorem trimL_ne_nil {l : Str} {c : Char} (hc : c ∈ l) (hns : isPySpace c = false) :
    trimL l ≠ [] := by
  intro h0
  rw [all_space_of_trimL_eq_nil h0 c hc] at hns
  exact absurd hns (by decide)

theorem subDashF_nil : ∀ (fuel : Nat), subDashF fuel [] = [] := by
  intro fuel; cases fuel <;> rfl

theorem subDotsF_nil : ∀ (fuel : Nat), subDotsF fuel [] = [] := by
  intro fuel; cases fuel <;> rfl

theorem collapseSemisF_nil : ∀ (fuel : Nat), collapseSemisF fuel [] = [] := by
  intro fuel; cases fuel <;> rfl

theorem replaceAllF_nil {pat rep : Str} : ∀ (fuel : Nat), replaceAllF pat rep fuel [] = [] := by
  intro fuel; cases fuel <;> rfl

theorem subDashF_ne_nil : ∀ (fuel : Nat) {s : Str}, s ≠ [] → subDashF fuel s ≠ [] := by
  intro fuel s hs
  cases fuel with
  | zero =>
    cases s with
    | nil => exact absurd rfl hs
    | cons a t => exact hs
  | succ n =>
    cases s with
    | nil => exact absurd rfl hs
    | cons a t =>
      by_cases ha : a = '-'
      · subst ha
        rw [subDashF, if_pos rfl]
        split
        · simp only []
          split
          · exact List.cons_ne_nil _ _
          · rw [List.takeWhile_cons_of_pos (by simp)]
            exact List.append_ne_nil_of_left_ne_nil (List.cons_ne_nil _ _) _
        · rw [List.takeWhile_cons_of_pos (by simp)]
          exact List.append_ne_nil_of_left_ne_nil (List.cons_ne_nil _ _) _
      · rw [subDashF, if_neg ha]
        exact List.cons_ne_nil _ _

theorem subDotsF_ne_nil : ∀ (fuel : Nat) {s : Str}, s ≠ [] → subDotsF fuel s ≠ [] := by
  intro fuel s hs
  cases fuel with
  | zero =>
    cases s with
    | nil => exact absurd rfl hs
    | cons a t => exact hs
  | succ n =>
    cases s with
    | nil => exact absurd rfl hs
    | cons a t =>
      by_cases ha : a = '.'
      · subst ha
        rw [subDotsF, if_pos rfl]
        split
        · simp only []
          split
          · exact List.cons_ne_nil _ _
          · rw [List.takeWhile_cons_of_pos (by simp)]
            exact List.append_ne_nil_of_left_ne_nil (List.cons_ne_nil _ _) _
        · rw [List.takeWhile_cons_of_pos (by simp)]
          exact List.append_ne_nil_of_left_ne_nil (List.cons_ne_nil _ _) _
      · rw [subDotsF, if_neg ha]
        exact List.cons_ne_nil _ _

theorem collapseSemisF_ne_nil : ∀ (fuel : Nat) {s : Str}, s ≠ [] → collapseSemisF fuel s ≠ [] := by
  intro fuel s hs
  cases fuel with
  | zero =>
    cases s with
    | nil => exact absurd rfl hs
    | cons a t => exact hs
  | succ n =>
    cases s with
    | nil => exact absurd rfl hs
    | cons a t =>
      by_cases ha : a = ';'
      · subst ha
        rw [collapseSemisF, if_pos rfl]
        exact List.cons_ne_nil _ _
      · rw [collapseSemisF, if_neg ha]
        exact List.cons_ne_nil _ _

theorem replaceAllF_ne_nil {pat rep : Str} (hrne : rep ≠ []) :
    ∀ (fuel : Nat) {s : Str}, s ≠ [] → replaceAllF pat rep fuel s ≠ [] := by
  intro fuel s hs
  cases fuel with
  | zero =>
    cases s with
    | nil => exact absurd rfl hs
    | cons a t => exact hs
  | succ n =>
    cases s with
    | nil => exact absurd rfl hs
    | cons a t =>
      by_cases hp : pat ≠ [] ∧ pat.isPrefixOf (a :: t) = true
      · rw [replaceAllF, if_pos hp]
        exact List.append_ne_nil_of_left_ne_nil hrne _
      · rw [replaceAllF, if_neg hp]
        exact List.cons_ne_nil _ _

theorem subDash_ne_nil {s : Str} (h : s ≠ []) : subDash s ≠ [] :=
  subDashF_ne_nil s.length h

theorem subDots_ne_nil {s : Str} (h : s ≠ []) : subDots s ≠ [] :=
  subDotsF_ne_nil s.length h

theorem collapseSemis_ne_nil {s : Str} (h : s ≠ []) : collapseSemis s ≠ [] :=
  collapseSemisF_ne_nil s.length h

theorem replaceAll_ne_nil {pat rep s : Str} (hrne : rep ≠ []) (h : s ≠ []) :
    replaceAll pat rep s ≠ [] :=
  replaceAllF_ne_nil hrne s.length h

theorem headNS_arrow_solid : headNS (lit "-->") := by
  intro c hc
  rw [show (lit "-->") = ['-', '-', '>'] from rfl] at hc
  simp only [List.head?_cons, Option.some.injEq] at hc
  subst hc
  rfl

theorem headNS_arrow_dashed : headNS (lit "-..->") := by
  intro c hc
  rw [show (lit "-..->") = ['-', '.', '.', '-', '>'] from rfl] at hc
  simp only [List.head?_cons, Option.some.injEq] at hc
  subst hc
  rfl

theorem headNS_subDash {s : Str} (h : headNS s) : headNS (subDash s) := by
  cases s with
  | nil => rw [subDash_nil]; exact h
  | cons a t =>
    by_cases ha : a = '-'
    · subst ha
      intro c hc
      rcases hdr : List.dropWhile (fun x => decide (x = '-')) ('-' :: t) with _ | ⟨b, r2⟩
      · rw [subDash_dash_nogt (by rw [hdr]; intro r2 hh; cases hh)] at hc
        rw [List.takeWhile_cons_of_pos (by simp)] at hc
        simp only [List.cons_append, List.head?_cons, Option.some.injEq] at hc
        subst hc
        rfl
      · by_cases hb : b = '>'
        · subst hb
          by_cases hlen : 4 ≤ (('-' :: t).takeWhile (fun x => decide (x = '-'))).length
          · rw [subDash_dash_long hdr hlen] at hc
            simp only [List.head?_cons, Option.some.injEq] at hc
            subst hc
            rfl
          · rw [subDash_dash_short hdr hlen] at hc
            rw [List.takeWhile_cons_of_pos (by simp)] at hc
            simp only [List.cons_append, List.head?_cons, Option.some.injEq] at hc
            subst hc
            rfl
        · rw [subDash_dash_nogt (by rw [hdr]; intro r2 hh; injection hh with h1 _; exact hb h1)] at hc
          rw [List.takeWhile_cons_of_pos (by simp)] at hc
          simp only [List.cons_append, List.head?_cons, Option.some.injEq] at hc
          subst hc
          rfl
    · rw [subDash_other ha]
      intro c hc
      simp only [List.head?_cons, Option.some.injEq] at hc
      subst hc
      exact h a rfl

theorem headNS_subDots {s : Str} (h : headNS s) : headNS (subDots s) := by
  cases s with
  | nil => rw [subDots_nil]; exact h
  | cons a t =>
    by_cases ha : a = '.'
    · subst ha
      intro c hc
      rcases hdr : List.dropWhile (fun x => decide (x = '.')) ('.' :: t) with _ | ⟨b, r2⟩
      · rw [subDots_dot_nogt (by rw [hdr]; intro r2 hh; cases hh)] at hc
        rw [List.takeWhile_cons_of_pos (by simp)] at hc
        simp only [List.cons_append, List.head?_cons, Option.some.injEq] at hc
        subst hc
        rfl
      · by_cases hb : b = '>'
        · subst hb
          by_cases hlen : 4 ≤ (('.' :: t).takeWhile (fun x => decide (x = '.'))).length
          · rw [subDots_dot_long hdr hlen] at hc
            simp only [List.head?_cons, Option.some.injEq] at hc
            subst hc
            rfl
          · rw [subDots_dot_short hdr hlen] at hc
            rw [List.takeWhile_cons_of_pos (by simp)] at hc
            simp only [List.cons_append, List.head?_cons, Option.some.injEq] at hc
            subst hc
            rfl
        · rw [subDots_dot_nogt (by rw [hdr]; intro r2 hh; injection hh with h1 _; exact hb h1)] at hc
          rw [List.takeWhile_cons_of_pos (by simp)] at hc
          simp only [List.cons_append, List.head?_cons, Option.some.injEq] at hc
          subst hc
          rfl
    · rw [subDots_other ha]
      intro c hc
      simp only [List.head?_cons, Option.some.injEq] at hc
      subst hc
      exact h a rfl

theorem headNS_collapseSemis {s : Str} (h : headNS s) : headNS (collapseSemis s) := by
  cases s with
  | nil => rw [collapseSemis_nil]; exact h
  | cons a t =>
    by_cases ha : a = ';'
    · subst ha
      rw [collapseSemis_semi]
      intro c hc
      simp only [List.head?_cons, Option.some.injEq] at hc
      subst hc
      rfl
    · rw [collapseSemis_other ha]
      intro c hc
      simp only [List.head?_cons, Option.some.injEq] at hc
      subst hc
      exact h a rfl

theorem headNS_replaceAll {pat rep s : Str} (hrep : headNS rep) (hrne : rep ≠ [])
    (h : headNS s) : headNS (replaceAll pat rep s) := by
  cases s with
  | nil => rw [replaceAll_nil]; exact h
  | cons a t =>
    by_cases hp : pat ≠ [] ∧ pat.isPrefixOf (a :: t) = true
    · rw [replaceAll_pos hp]
      intro c hc
      rw [List.head?_append_of_ne_nil _ hrne] at hc
      exact hrep c hc
    · rw [replaceAll_neg hp]
      intro c hc
      simp only [List.head?_cons, Option.some.injEq] at hc
      subst hc
      exact h a rfl

theorem wjAux_head (c : Char) (t : List Char) : (wjAux (c :: t)).head? = some c := by
  rcases hm : matchAt (c :: t) with _ | ⟨w1, sp, w2, r3⟩
  · rw [wjAux_none_cons hm]
    rfl
  · rw [wjAux_some hm]
    obtain ⟨-, hw1, -, -, hw1eq, -⟩ := matchAt_spec hm
    cases hw : w1 with
    | nil => exact absurd hw hw1
    | cons a u =>
      have ha : a = c := by
        by_cases hwc : isWordChar c
        · rw [List.takeWhile_cons_of_pos hwc] at hw1eq
          rw [hw] at hw1eq
          injection hw1eq with h1 _
        · rw [List.takeWhile_cons_of_neg hwc] at hw1eq
          rw [hw] at hw1eq
          cases hw1eq
      subst ha
      rfl

theorem headNS_bracketFix {l : Str} (h : headNS l) : headNS (bracketFix l) := by
  unfold bracketFix
  split
  · simp only []
    cases hl : l with
    | nil =>
      intro c hc
      simp only [List.takeWhile_nil, wjAux_nil, List.nil_append, List.head?_cons,
        Option.some.injEq] at hc
      subst hc
      rfl
    | cons a t =>
      by_cases ha : a = '['
      · subst ha
        intro c hc
        rw [List.takeWhile_cons_of_neg (by simp)] at hc
        simp only [wjAux_nil, List.nil_append, List.head?_cons, Option.some.injEq] at hc
        subst hc
        rfl
      · intro c hc
        rw [List.takeWhile_cons_of_pos (by simpa using ha)] at hc
        have hhd := wjAux_head a (t.takeWhile (· ≠ '['))
        rw [List.head?_append_of_ne_nil _ (by intro h0; rw [h0] at hhd; cases hhd)] at hc
        rw [hhd] at hc
        simp only [Option.some.injEq] at hc
        subst hc
        exact h a (by rw [hl]; rfl)
  · exact h

theorem getLast?_subDashF :
    ∀ (fuel : Nat) (s : Str), (subDashF fuel s).getLast? = s.getLast? := by
  intro fuel
  induction fuel with
  | zero =>
    intro s
    cases s with
    | nil => rfl
    | cons a t => rfl
  | succ n ih =>
    intro s
    cases s with
    | nil => rfl
    | cons a t =>
      by_cases ha : a = '-'
      · subst ha
        rw [subDashF, if_pos rfl]
        split
        next r2 heq =>
          simp only []
          have hts := List.takeWhile_append_dropWhile
            (p := fun x => decide (x = '-')) (l := ('-' :: t))
          rw [heq] at hts
          split
          next hlen =>
            rcases hr : r2 with _ | ⟨x, xs⟩
            · subst hr
              rw [subDashF_nil]
              conv_rhs => rw [← hts]
              rw [List.getLast?_append_of_ne_nil _ (List.cons_ne_nil '>' [])]
              rfl
            · subst hr
              show (['-', '-', '>'] ++ subDashF n (x :: xs)).getLast? = _
              rw [List.getLast?_append_of_ne_nil _
                (subDashF_ne_nil n (List.cons_ne_nil x xs))]
              rw [ih (x :: xs)]
              conv_rhs => rw [← hts]
              rw [List.getLast?_append_of_ne_nil _ (List.cons_ne_nil '>' (x :: xs))]
              rw [getLast?_cons_of_ne_nil (List.cons_ne_nil x xs)]
          next hlen =>
            rw [List.getLast?_append_of_ne_nil _
              (subDashF_ne_nil n (List.cons_ne_nil '>' r2))]
            rw [ih ('>' :: r2)]
            conv_rhs => rw [← hts]
            rw [List.getLast?_append_of_ne_nil _ (List.cons_ne_nil '>' r2)]
        next r heq =>
          simp only []
          have hts := List.takeWhile_append_dropWhile
            (p := fun x => decide (x = '-')) (l := ('-' :: t))
          rcases hr : List.dropWhile (fun x => decide (x = '-')) ('-' :: t) with _ | ⟨x, xs⟩
          · rw [subDashF_nil, List.append_nil]
            rw [hr, List.append_nil] at hts
            rw [hts]
          · rw [List.getLast?_append_of_ne_nil _
              (subDashF_ne_nil n (List.cons_ne_nil x xs))]
            rw [ih (x :: xs)]
            conv_rhs => rw [← hts, hr]
            rw [List.getLast?_append_of_ne_nil _ (List.cons_ne_nil x xs)]
      · rw [subDashF, if_neg ha]
        rcases ht : t with _ | ⟨y, ys⟩
        · rw [subDashF_nil]
        · rw [getLast?_cons_of_ne_nil (subDashF_ne_nil n (List.cons_ne_nil y ys))]
          rw [ih (y :: ys)]
          rw [getLast?_cons_of_ne_nil (List.cons_ne_nil y ys)]

theorem getLast?_subDash (s : Str) : (subDash s).getLast? = s.getLast? :=
  getLast?_subDashF s.length s

theorem getLast?_subDotsF :
    ∀ (fuel : Nat) (s : Str), (subDotsF fuel s).getLast? = s.getLast? := by
  intro fuel
  induction fuel with
  | zero =>
    intro s
    cases s with
    | nil => rfl
    | cons a t => rfl
  | succ n ih =>
    intro s
    cases s with
    | nil => rfl
    | cons a t =>
      by_cases ha : a = '.'
      · subst ha
        rw [subDotsF, if_pos rfl]
        split
        next r2 heq =>
          simp only []
          have hts := List.takeWhile_append_dropWhile
            (p := fun x => decide (x = '.')) (l := ('.' :: t))
          rw [heq] at hts
          split
          next hlen =>
            rcases hr : r2 with _ | ⟨x, xs⟩
            · subst hr
              rw [subDotsF_nil]
              conv_rhs => rw [← hts]
              rw [List.getLast?_append_of_ne_nil _ (List.cons_ne_nil '>' [])]
              rfl
            · subst hr
              show (['-', '.', '.', '-', '>'] ++ subDotsF n (x :: xs)).getLast? = _
              rw [List.getLast?_append_of_ne_nil _
                (subDotsF_ne_nil n (List.cons_ne_nil x xs))]
              rw [ih (x :: xs)]
              conv_rhs => rw [← hts]
              rw [List.getLast?_append_of_ne_nil _ (List.cons_ne_nil '>' (x :: xs))]
              rw [getLast?_cons_of_ne_nil (List.cons_ne_nil x xs)]
          next hlen =>
            rw [List.getLast?_append_of_ne_nil _
              (subDotsF_ne_nil n (List.cons_ne_nil '>' r2))]
            rw [ih ('>' :: r2)]
            conv_rhs => rw [← hts]
            rw [List.getLast?_append_of_ne_nil _ (List.cons_ne_nil '>' r2)]
        next r heq =>
          simp only []
          have hts := List.takeWhile_append_dropWhile
            (p := fun x => decide (x = '.')) (l := ('.' :: t))
          rcases hr : List.dropWhile (fun x => decide (x = '.')) ('.' :: t) with _ | ⟨x, xs⟩
          · rw [subDotsF_nil, List.append_nil]
            rw [hr, List.append_nil] at hts
            rw [hts]
          · rw [List.getLast?_append_of_ne_nil _
              (subDotsF_ne_nil n (List.cons_ne_nil x xs))]
            rw [ih (x :: xs)]
            conv_rhs => rw [← hts, hr]
            rw [List.getLast?_append_of_ne_nil _ (List.cons_ne_nil x xs)]
      · rw [subDotsF, if_neg ha]
        rcases ht : t with _ | ⟨y, ys⟩
        · rw [subDotsF_nil]
        · rw [getLast?_cons_of_ne_nil (subDotsF_ne_nil n (List.cons_ne_nil y ys))]
          rw [ih (y :: ys)]
          rw [getLast?_cons_of_ne_nil (List.cons_ne_nil y ys)]

theorem getLast?_subDots (s : Str) : (subDots s).getLast? = s.getLast? :=
  getLast?_subDotsF s.length s

theorem getLast?_collapseSemisF :
    ∀ (fuel : Nat) (s : Str), (collapseSemisF fuel s).getLast? = s.getLast? := by
  intro fuel
  induction fuel with
  | zero =>
    intro s
    cases s with
    | nil => rfl
    | cons a t => rfl
  | succ n ih =>
    intro s
    cases s with
    | nil => rfl
    | cons a t =>
      by_cases ha : a = ';'
      · subst ha
        rw [collapseSemisF, if_pos rfl]
        rcases hd : List.dropWhile (fun x => decide (x = ';')) t with _ | ⟨x, xs⟩
        · rw [collapseSemisF_nil]
          have hall : ∀ x ∈ t, x = ';' := by
            intro x hx
            have := List.dropWhile_eq_nil_iff.mp hd x hx
            simpa using this
          cases ht : t with
          | nil => rfl
          | cons y ys =>
            rw [getLast?_cons_of_ne_nil (List.cons_ne_nil y ys)]
            rcases hg : (y :: ys : Str).getLast? with _ | c
            · rw [List.getLast?_eq_none_iff] at hg
              cases hg
            · have hc : c ∈ y :: ys := List.mem_of_mem_getLast? hg
              rw [hall c (by rw [ht]; exact hc)]
              rfl
        · rw [getLast?_cons_of_ne_nil (collapseSemisF_ne_nil n (List.cons_ne_nil x xs))]
          rw [ih (x :: xs)]
          have hsuf := List.dropWhile_suffix (l := t) (fun x => decide (x = ';'))
          rw [hd] at hsuf
          obtain ⟨w, hw⟩ := hsuf
          have ht : t ≠ [] := by
            intro h0
            rw [h0] at hw
            simp at hw
          rw [getLast?_cons_of_ne_nil ht, ← hw,
            List.getLast?_append_of_ne_nil w (List.cons_ne_nil x xs)]
      · rw [collapseSemisF, if_neg ha]
        rcases ht : t with _ | ⟨y, ys⟩
        · rw [collapseSemisF_nil]
        · rw [getLast?_cons_of_ne_nil (collapseSemisF_ne_nil n (List.cons_ne_nil y ys))]
          rw [ih (y :: ys)]
          rw [getLast?_cons_of_ne_nil (List.cons_ne_nil y ys)]

theorem getLast?_collapseSemis (s : Str) : (collapseSemis s).getLast? = s.getLast? :=
  getLast?_collapseSemisF s.length s

theorem getLast?_replaceAllF {pat rep : Str} (hpr : pat.getLast? = rep.getLast?)
    (hrne : rep ≠ []) :
    ∀ (fuel : Nat) (s : Str), (replaceAllF pat rep fuel s).getLast? = s.getLast? := by
  intro fuel
  induction fuel with
  | zero =>
    intro s
    cases s with
    | nil => rfl
    | cons a t => rfl
  | succ n ih =>
    intro s
    cases s with
    | nil => rfl
    | cons a t =>
      by_cases hp : pat ≠ [] ∧ pat.isPrefixOf (a :: t) = true
      · rw [replaceAllF, if_pos hp]
        have hpre : pat ++ (a :: t).drop pat.length = a :: t :=
          List.prefix_iff_eq_append.mp (List.isPrefixOf_iff_prefix.mp hp.2)
        rcases hd : (a :: t).drop pat.length with _ | ⟨x, xs⟩
        · rw [replaceAllF_nil, List.append_nil]
          rw [hd, List.append_nil] at hpre
          rw [← hpre, ← hpr]
        · rw [List.getLast?_append_of_ne_nil _
            (replaceAllF_ne_nil hrne n (List.cons_ne_nil x xs))]
          rw [ih (x :: xs)]
          conv_rhs => rw [← hpre, hd]
          rw [List.getLast?_append_of_ne_nil _ (List.cons_ne_nil x xs)]
      · rw [replaceAllF, if_neg hp]
        rcases ht : t with _ | ⟨y, ys⟩
        · rw [replaceAllF_nil]
        · rw [getLast?_cons_of_ne_nil (replaceAllF_ne_nil hrne n (List.cons_ne_nil y ys))]
          rw [ih (y :: ys)]
          rw [getLast?_cons_of_ne_nil (List.cons_ne_nil y ys)]

theorem getLast?_replaceAll {pat rep : Str} (hpr : pat.getLast? = rep.getLast?)
    (hrne : rep ≠ []) (s : Str) :
    (replaceAll pat rep s).getLast? = s.getLast? :=
  getLast?_replaceAllF hpr hrne s.length s

/-- A line containing `[` splits as the part before the first `[`, the
bracket, and the rest. -/
theorem bracket_decomp {l : Str} (h : l.contains '[' = true) :
    l = l.takeWhile (· ≠ '[') ++ '[' :: ((l.dropWhile (· ≠ '[')).drop 1) := by
  have hmem : '[' ∈ l := List.mem_of_elem_eq_true h
  rcases hd : l.dropWhile (· ≠ '[') with _ | ⟨c, u⟩
  · exfalso
    have := List.dropWhile_eq_nil_iff.mp hd '[' hmem
    simp at this
  · have hc : c = '[' := by
      have := head_dropWhile_not (p := (· ≠ '[')) (l := l) (c := c) (by rw [hd]; rfl)
      simpa using this
    subst hc
    conv_lhs => rw [← List.takeWhile_append_dropWhile (p := (· ≠ '[')) (l := l)]
    rw [hd]
    rfl

theorem getLast?_bracketFix (l : Str) : (bracketFix l).getLast? = l.getLast? := by
  unfold bracketFix
  split
  next hb =>
    simp only []
    conv_rhs => rw [bracket_decomp hb]
    rw [List.getLast?_append_of_ne_nil _ (List.cons_ne_nil _ _),
        List.getLast?_append_of_ne_nil _ (List.cons_ne_nil _ _)]
  next => rfl

theorem headNS_fixLine (l0 : Str) : headNS (fixLine l0) := by
  unfold fixLine
  simp only []
  split
  next => exact headNS_trimL l0
  next =>
    split
    next => exact headNS_trimL l0
    next =>
      apply headNS_collapseSemis
      split
      next =>
        exact headNS_bracketFix (headNS_replaceAll headNS_arrow_dashed (by decide)
          (headNS_replaceAll headNS_arrow_solid (by decide)
            (headNS_subDots (headNS_subDash (headNS_trimL l0)))))
      next =>
        exact headNS_replaceAll headNS_arrow_dashed (by decide)
          (headNS_replaceAll headNS_arrow_solid (by decide)
            (headNS_subDots (headNS_subDash (headNS_trimL l0))))

theorem lastNS_fixLine (l0 : Str) : lastNS (fixLine l0) := by
  unfold fixLine
  simp only []
  split
  next => exact lastNS_trimL l0
  next =>
    split
    next => exact lastNS_trimL l0
    next =>
      intro c hc
      rw [getLast?_collapseSemis] at hc
      split at hc
      next =>
        rw [getLast?_bracketFix, getLast?_replaceAll (by rfl) (by decide),
          getLast?_replaceAll (by rfl) (by decide), getLast?_subDots,
          getLast?_subDash] at hc
        exact lastNS_trimL l0 c hc
      next =>
        rw [getLast?_replaceAll (by rfl) (by decide),
          getLast?_replaceAll (by rfl) (by decide), getLast?_subDots,
          getLast?_subDash] at hc
        exact lastNS_trimL l0 c hc

theorem trimL_fixLine (l0 : Str) : trimL (fixLine l0) = fixLine l0 :=
  trimL_eq_self (headNS_fixLine l0) (lastNS_fixLine l0)

theorem bracketFix_ne_nil {l : Str} (h : l ≠ []) : bracketFix l ≠ [] := by
  unfold bracketFix
  split
  · simp only []
    exact List.append_ne_nil_of_right_ne_nil _ (List.cons_ne_nil _ _)
  · exact h

theorem fixLine_ne_nil {l0 : Str} (h : trimL l0 ≠ []) : fixLine l0 ≠ [] := by
  unfold fixLine
  simp only []
  split
  next => exact h
  next =>
    split
    next => exact h
    next =>
      apply collapseSemis_ne_nil
      split
      · exact bracketFix_ne_nil (replaceAll_ne_nil (by decide)
          (replaceAll_ne_nil (by decide) (subDots_ne_nil (subDash_ne_nil h))))
      · exact replaceAll_ne_nil (by decide)
          (replaceAll_ne_nil (by decide) (subDots_ne_nil (subDash_ne_nil h)))

theorem joinNl_single (a : Str) : joinNl [a] = a := by
  simp [joinNl, List.intercalate]

theorem joinNl_cons_cons (a b : Str) (L : List Str) :
    joinNl (a :: b :: L) = a ++ '\n' :: joinNl (b :: L) := by
  simp [joinNl, List.intercalate, List.intersperse]

theorem head?_joinNl {a : Str} (L : List Str) (ha : a ≠ []) :
    (joinNl (a :: L)).head? = a.head? := by
  cases L with
  | nil => rw [joinNl_single]
  | cons b M =>
    rw [joinNl_cons_cons]
    exact List.head?_append_of_ne_nil _ ha

theorem getLast?_joinNl : ∀ {L : List Str} {o : Str}, L.getLast? = some o → o ≠ [] →
    (joinNl L).getLast? = o.getLast? := by
  intro L
  induction L with
  | nil => intro o h _; cases h
  | cons a M ih =>
    intro o h ho
    cases M with
    | nil =>
      have ha : a = o := by simpa using h
      subst ha
      rw [joinNl_single]
    | cons b N =>
      rw [getLast?_cons_of_ne_nil (List.cons_ne_nil b N)] at h
      have hne : joinNl (b :: N) ≠ [] := by
        intro h0
        have h1 := ih h ho
        rw [h0] at h1
        exact ho (List.getLast?_eq_none_iff.mp h1.symm)
      rw [joinNl_cons_cons,
        List.getLast?_append_of_ne_nil _ (List.cons_ne_nil '\n' _),
        getLast?_cons_of_ne_nil hne]
      exact ih h ho

theorem joinNl_head_nil {L : List Str} (h : L.head? = some []) :
    joinNl L = [] ∨ (joinNl L).head? = some '\n' := by
  cases L with
  | nil => cases h
  | cons a M =>
    have ha : a = [] := by simpa using h
    subst ha
    cases M with
    | nil =>
      left
      rw [joinNl_single]
    | cons b N =>
      right
      rw [joinNl_cons_cons]
      rfl

theorem joinNl_last_nil : ∀ {L : List Str}, L.getLast? = some [] →
    joinNl L = [] ∨ (joinNl L).getLast? = some '\n' := by
  intro L
  induction L with
  | nil => intro h; cases h
  | cons a M ih =>
    intro h
    cases M with
    | nil =>
      have ha : a = [] := by simpa using h
      subst ha
      left
      rw [joinNl_single]
    | cons b N =>
      rw [getLast?_cons_of_ne_nil (List.cons_ne_nil b N)] at h
      right
      rw [joinNl_cons_cons]
      rcases ih h with h0 | h0
      · rw [h0]
        rw [List.getLast?_append_of_ne_nil _ (List.cons_ne_nil _ _)]
        rfl
      · have hne : joinNl (b :: N) ≠ [] := by
          intro h1
          rw [h1] at h0
          cases h0
        rw [List.getLast?_append_of_ne_nil _ (List.cons_ne_nil _ _),
          getLast?_cons_of_ne_nil hne]
        exact h0

theorem mem_joinNl {x : Char} : ∀ {L : List Str}, x ∈ joinNl L →
    (∃ l ∈ L, x ∈ l) ∨ x = '\n' := by
  intro L
  induction L with
  | nil =>
    intro h
    simp [joinNl, List.intercalate] at h
  | cons a M ih =>
    intro h
    cases M with
    | nil =>
      rw [joinNl_single] at h
      exact Or.inl ⟨a, List.mem_cons_self a [], h⟩
    | cons b N =>
      rw [joinNl_cons_cons] at h
      rcases List.mem_append.mp h with h1 | h1
      · exact Or.inl ⟨a, List.mem_cons_self a _, h1⟩
      · rcases List.mem_cons.mp h1 with h2 | h2
        · exact Or.inr h2
        · rcases ih h2 with ⟨l, hl, hx⟩ | h3
          · exact Or.inl ⟨l, List.mem_cons_of_mem a hl, hx⟩
          · exact Or.inr h3

theorem mem_joinNl_of_mem {x : Char} : ∀ {L : List Str} {l : Str}, l ∈ L → x ∈ l →
    x ∈ joinNl L := by
  intro L
  induction L with
  | nil =>
    intro l hl _
    cases hl
  | cons a M ih =>
    intro l hl hx
    cases M with
    | nil =>
      rw [joinNl_single]
      rcases List.mem_cons.mp hl with h1 | h1
      · subst h1
        exact hx
      · cases h1
    | cons b N =>
      rw [joinNl_cons_cons]
      rcases List.mem_cons.mp hl with h1 | h1
      · subst h1
        exact List.mem_append_left _ hx
      · exact List.mem_append_right _ (List.mem_cons_of_mem '\n' (ih h1 hx))

theorem joinNl_splitNl (p : Str) : joinNl (splitNl p) = p :=
  List.intercalate_splitOn p '\n'

theorem mem_of_splitNl {x : Char} {p l : Str} (hl : l ∈ splitNl p) (hx : x ∈ l) :
    x ∈ p := by
  rw [← joinNl_splitNl p]
  exact mem_joinNl_of_mem hl hx

/-- The first line of a trimmed nonempty text is nonempty and carries its
first character. -/
theorem splitNl_first {p : Str} (hp : p ≠ []) (hns : headNS p) :
    ∃ l1 rest, splitNl p = l1 :: rest ∧ l1 ≠ [] ∧ p.head? = l1.head? := by
  have hj : joinNl (splitNl p) = p := joinNl_splitNl p
  rcases hsp : splitNl p with _ | ⟨l1, rest⟩
  · exact absurd hsp (splitNl_ne_nil p)
  · rw [hsp] at hj
    have hne : l1 ≠ [] := by
      intro h0
      subst h0
      rcases joinNl_head_nil (L := [] :: rest) rfl with h1 | h1
      · rw [h1] at hj
        exact hp hj.symm
      · rw [hj] at h1
        exact absurd (hns '\n' h1) (by decide)
    exact ⟨l1, rest, rfl, hne, by rw [← hj, head?_joinNl rest hne]⟩

/-- The last line of a trimmed nonempty text is nonempty and carries its
last character. -/
theorem splitNl_last {p : Str} (hp : p ≠ []) (hns : lastNS p) :
    ∃ ln, (splitNl p).getLast? = some ln ∧ ln ≠ [] ∧ p.getLast? = ln.getLast? := by
  have hj : joinNl (splitNl p) = p := joinNl_splitNl p
  rcases hg : (splitNl p).getLast? with _ | ln
  · exact absurd (List.getLast?_eq_none_iff.mp hg) (splitNl_ne_nil p)
  · have hlnne : ln ≠ [] := by
      intro h0
      subst h0
      rcases joinNl_last_nil hg with h1 | h1
      · rw [hj] at h1
        exact hp h1
      · rw [hj] at h1
        exact absurd (hns '\n' h1) (by decide)
    exact ⟨ln, rfl, hlnne, by rw [← hj, getLast?_joinNl hg hlnne]⟩

theorem mem_preprocess {x : Char} {s : Str} (h : x ∈ preprocess s) : x ∈ s := by
  unfold preprocess at h
  simp only [] at h
  split at h
  · have h1 := mem_trimL h
    rcases mem_replaceAll h1 with h2 | h2
    · rcases mem_replaceAll h2 with h3 | h3
      · exact mem_trimL h3
      · exact absurd h3 (List.not_mem_nil x)
    · exact absurd h2 (List.not_mem_nil x)
  · split at h
    · have h1 := mem_trimL h
      rcases mem_replaceAll h1 with h2 | h2
      · exact mem_trimL h2
      · exact absurd h2 (List.not_mem_nil x)
    · exact mem_trimL h

theorem headNS_preprocess (s : Str) : headNS (preprocess s) := by
  unfold preprocess
  simp only []
  split
  · exact headNS_trimL _
  · split
    · exact headNS_trimL _
    · exact headNS_trimL _

theorem lastNS_preprocess (s : Str) : lastNS (preprocess s) := by
  unfold preprocess
  simp only []
  split
  · exact lastNS_trimL _
  · split
    · exact lastNS_trimL _
    · exact lastNS_trimL _

/-- A repaired line on which every rewrite of the repairer is inert: the
dash-run, dot-run, `===>`, `....>`, node-id-join and semicolon rewrites all
leave it unchanged.  These are exactly the second-pass rewrites of
`fix_mermaid_syntax` on an already-repaired line. -/
def lineInert (m : Str) : Bool :=
  decide (subDash m = m) && decide (subDots m = m) &&
  decide (replaceAll (lit "===>") (lit "-->") m = m) &&
  decide (replaceAll (lit "....>") (lit "-..->") m = m) &&
  (!(m.contains '[') || decide (wjAux (m.takeWhile (· ≠ '[')) = m.takeWhile (· ≠ '['))) &&
  decide (collapseSemis m = m)

theorem lineInert_spec {m : Str} (h : lineInert m = true) :
    subDash m = m ∧ subDots m = m ∧ replaceAll (lit "===>") (lit "-->") m = m ∧
    replaceAll (lit "....>") (lit "-..->") m = m ∧
    (m.contains '[' = true → wjAux (m.takeWhile (· ≠ '[')) = m.takeWhile (· ≠ '[')) ∧
    collapseSemis m = m := by
  unfold lineInert at h
  simp only [Bool.and_eq_true, Bool.or_eq_true, Bool.not_eq_true',
    decide_eq_true_eq] at h
  obtain ⟨⟨⟨⟨⟨h1, h2⟩, h3⟩, h4⟩, h5⟩, h6⟩ := h
  refine ⟨h1, h2, h3, h4, ?_, h6⟩
  intro hb
  rcases h5 with h5 | h5
  · rw [h5] at hb
    exact absurd hb (by decide)
  · exact h5

theorem bracketFix_eq_self {m : Str}
    (h5 : m.contains '[' = true →
      wjAux (m.takeWhile (· ≠ '[')) = m.takeWhile (· ≠ '[')) :
    bracketFix m = m := by
  unfold bracketFix
  split
  next hb =>
    simp only []
    rw [h5 hb]
    exact (bracket_decomp hb).symm
  next => rfl

theorem fixLine_fixed {m : Str} (htrim : trimL m = m)
    (h1 : subDash m = m) (h2 : subDots m = m)
    (h3 : replaceAll (lit "===>") (lit "-->") m = m)
    (h4 : replaceAll (lit "....>") (lit "-..->") m = m)
    (h5 : m.contains '[' = true →
      wjAux (m.takeWhile (· ≠ '[')) = m.takeWhile (· ≠ '['))
    (h6 : collapseSemis m = m) :
    fixLine m = m := by
  unfold fixLine
  rw [htrim]
  simp only []
  split
  next => rfl
  next =>
    split
    next => rfl
    next =>
      rw [h1, h2, h3, h4]
      split
      · rw [bracketFix_eq_self h5]
        exact h6
      · exact h6

theorem map_fixLine_id : ∀ (L : List Str), (∀ o ∈ L, fixLine o = o) →
    L.map fixLine = L := by
  intro L
  induction L with
  | nil => intro _; rfl
  | cons a M ih =>
    intro hL
    rw [List.map_cons, hL a (List.mem_cons_self a M),
      ih (fun o ho => hL o (List.mem_cons_of_mem a ho))]

theorem preprocess_eq_self {t : Str} (htrim : trimL t = t)
    (hA : ¬ (lit "```mermaid").isPrefixOf t = true)
    (hB : ¬ (lit "```").isPrefixOf t = true) : preprocess t = t := by
  unfold preprocess
  simp only []
  rw [htrim, if_neg hA, if_neg hB]

/-- C2 counterexample: `fix_mermaid_syntax` is not idempotent.  On the line
`a b c[x]` the node-id rewrite joins only the last two words before the
bracket (`a b_c[x]`); the second pass then matches `a b_c` again and yields
`a_b_c[x]`. -/
theorem fix_not_idempotent :
    fix_mermaid_syntax ( fix_mermaid_syntax (lit "a b c[x]")) ≠
      fix_mermaid_syntax (lit "a b c[x]") := by
  decide

/-- C2 amended: the repairer is idempotent on every fence-free input whose
first-pass output has only inert lines — lines on which the dash-run,
dot-run, `===>`, `....>`, node-id-join and semicolon rewrites are all
inert.  The first pass always produces stripped lines (proved, not
assumed), so the second pass re-selects every branch identically and
changes nothing. -/
theorem fix_idempotent_of_inert (s : Str) (hbt : '`' ∉ s)
    (hlines : ∀ l ∈ splitNl (preprocess s), lineInert (fixLine l) = true) :
    fix_mermaid_syntax ( fix_mermaid_syntax s) = fix_mermaid_syntax s := by
  by_cases hp : preprocess s = []
  · have h1 : fix_mermaid_syntax s = [] := by
      unfold fix_mermaid_syntax
      rw [hp]
      decide
    rw [h1]
    decide
  · obtain ⟨l1, rest, hsp, hl1ne, hh⟩ := splitNl_first hp (headNS_preprocess s)
    obtain ⟨ln, hgl, hlnne, hlast⟩ := splitNl_last hp (lastNS_preprocess s)
    have hfl1 : fixLine l1 ≠ [] := by
      apply fixLine_ne_nil
      rcases hph : (preprocess s).head? with _ | c0
      · exact absurd (List.head?_eq_none_iff.mp hph) hp
      · have hc0l1 : l1.head? = some c0 := by rw [← hh]; exact hph
        exact trimL_ne_nil (List.mem_of_mem_head? hc0l1) (headNS_preprocess s c0 hph)
    have hfln : fixLine ln ≠ [] := by
      apply fixLine_ne_nil
      rcases hpl : (preprocess s).getLast? with _ | c1
      · exact absurd (List.getLast?_eq_none_iff.mp hpl) hp
      · have hc1 : ln.getLast? = some c1 := by rw [← hlast]; exact hpl
        exact trimL_ne_nil (List.mem_of_mem_getLast? hc1) (lastNS_preprocess s c1 hpl)
    have houts_nl : ∀ o ∈ (splitNl (preprocess s)).map fixLine, '\n' ∉ o := by
      intro o ho
      rcases List.mem_map.mp ho with ⟨l, hl, rfl⟩
      exact nl_not_mem_fixLine (nl_not_mem_splitNl hl)
    have hheadT : headNS (joinNl ((splitNl (preprocess s)).map fixLine)) := by
      intro c hc
      rw [hsp, List.map_cons, head?_joinNl _ hfl1] at hc
      exact headNS_fixLine l1 c hc
    have hlastT : lastNS (joinNl ((splitNl (preprocess s)).map fixLine)) := by
      intro c hc
      have hmg : ((splitNl (preprocess s)).map fixLine).getLast? =
          some (fixLine ln) := by
        rw [List.getLast?_map, hgl]
        rfl
      rw [getLast?_joinNl hmg hfln] at hc
      exact lastNS_fixLine ln c hc
    have htrimT : trimL (joinNl ((splitNl (preprocess s)).map fixLine)) =
        joinNl ((splitNl (preprocess s)).map fixLine) :=
      trimL_eq_self hheadT hlastT
    have hbtT : '`' ∉ joinNl ((splitNl (preprocess s)).map fixLine) := by
      intro hmem
      rcases mem_joinNl hmem with ⟨o, ho, hxo⟩ | hEq
      · rcases List.mem_map.mp ho with ⟨l, hl, rfl⟩
        rcases mem_fixLine hxo with h1 | h1 | h1 | h1 | h1
        · exact hbt (mem_preprocess (mem_of_splitNl hl h1))
        · exact absurd h1 (by decide)
        · exact absurd h1 (by decide)
        · exact absurd h1 (by decide)
        · exact absurd h1 (by decide)
      · exact absurd hEq (by decide)
    have hppT : preprocess (joinNl ((splitNl (preprocess s)).map fixLine)) =
        joinNl ((splitNl (preprocess s)).map fixLine) := by
      have hA : ¬ (lit "```mermaid").isPrefixOf
          (joinNl ((splitNl (preprocess s)).map fixLine)) = true := by
        intro hA
        obtain ⟨u, hu⟩ := List.isPrefixOf_iff_prefix.mp hA
        apply hbtT
        rw [← hu]
        exact List.mem_append_left _ (by decide)
      have hB : ¬ (lit "```").isPrefixOf
          (joinNl ((splitNl (preprocess s)).map fixLine)) = true := by
        intro hB
        obtain ⟨u, hu⟩ := List.isPrefixOf_iff_prefix.mp hB
        apply hbtT
        rw [← hu]
        exact List.mem_append_left _ (by decide)
      exact preprocess_eq_self htrimT hA hB
    have hsplitT : splitNl (joinNl ((splitNl (preprocess s)).map fixLine)) =
        (splitNl (preprocess s)).map fixLine :=
      splitNl_joinNl (by rw [hsp, List.map_cons]; exact List.cons_ne_nil _ _)
        houts_nl
    have hfixed : ∀ o ∈ (splitNl (preprocess s)).map fixLine, fixLine o = o := by
      intro o ho
      rcases List.mem_map.mp ho with ⟨l, hl, rfl⟩
      obtain ⟨h1, h2, h3, h4, h5, h6⟩ := lineInert_spec (hlines l hl)
      exact fixLine_fixed (trimL_fixLine l) h1 h2 h3 h4 h5 h6
    show joinNl ((splitNl (preprocess
      (joinNl ((splitNl (preprocess s)).map fixLine)))).map fixLine) =
      joinNl ((splitNl (preprocess s)).map fixLine)
    rw [hppT, hsplitT, map_fixLine_id _ hfixed]

/-- Witness for `fix_idempotent_of_inert` at a concrete two-line diagram. -/
theorem fix_idempotent_of_inert_witness :
    ('`' ∉ lit "flowchart TD\nA[Start] --> B[End]") ∧
    (∀ l ∈ splitNl (preprocess (lit "flowchart TD\nA[Start] --> B[End]")),
      lineInert (fixLine l) = true) ∧
    fix_mermaid_syntax ( fix_mermaid_syntax
      (lit "flowchart TD\nA[Start] --> B[End]")) =
      fix_mermaid_syntax (lit "flowchart TD\nA[Start] --> B[End]") :=
  ⟨by decide, by decide,
    fix_idempotent_of_inert (lit "flowchart TD\nA[Start] --> B[End]")
      (by decide) (by decide)⟩

/-! ### Claim C1: the degraded-budget rebuild -/

theorem firstIdxAux_eq_some {pat : Str} :
    ∀ (n : Nat) (s : Str) (i : Nat), pat.isPrefixOf (s.drop n) = true →
      (∀ k, k < n → ¬ pat.isPrefixOf (s.drop k) = true) →
      firstIdxAux pat i s = some (i + n) := by
  intro n
  induction n with
  | zero =>
    intro s i hn _
    unfold firstIdxAux
    rw [if_pos (by simpa using hn)]
    rfl
  | succ m ih =>
    intro s i hn hbefore
    cases s with
    | nil =>
      exact absurd (by simpa using hn) (by simpa using hbefore 0 (by omega))
    | cons c t =>
      unfold firstIdxAux
      rw [if_neg (by simpa using hbefore 0 (by omega))]
      show firstIdxAux pat (i + 1) t = some (i + (m + 1))
      rw [ih t (i + 1) (by simpa using hn)
        (fun k hk => by simpa using hbefore (k + 1) (by omega))]
      congr 1
      omega

/-- `firstIdx` finds `n` when the pattern occurs at `n` and at no earlier
position. -/
theorem firstIdx_eq_some (n : Nat) (s pat : Str)
    (hn : pat.isPrefixOf (s.drop n) = true)
    (hbefore : ∀ i, i < n → ¬ pat.isPrefixOf (s.drop i) = true) :
    firstIdx s pat = some n := by
  unfold firstIdx
  rw [firstIdxAux_eq_some n s 0 hn hbefore]
  congr 1
  omega

/-- `split(pat)[0]` of `pre ++ pat ++ post` is `pre` when the pattern has
no occurrence starting inside `pre`. -/
theorem splitFirstSub_append (pre post pat : Str)
    (hno : ∀ i, i < pre.length →
      ¬ pat.isPrefixOf ((pre ++ pat ++ post).drop i) = true) :
    splitFirstSub (pre ++ pat ++ post) pat = pre := by
  have hidx : firstIdx (pre ++ pat ++ post) pat = some pre.length := by
    apply firstIdx_eq_some
    · rw [List.append_assoc, List.drop_left]
      exact List.isPrefixOf_iff_prefix.mpr (List.prefix_append _ _)
    · exact hno
  unfold splitFirstSub
  rw [hidx]
  show List.take pre.length (pre ++ pat ++ post) = pre
  rw [List.append_assoc, List.take_left]

/-- Modelled from the spec: a stand-in for the collaborator
`format_file_structure` of `github_service` (a pure structure-to-text
renderer outside this repository's sources). -/
def treeFmt : FSList → Str := fun _ => lit "TREE"

/-- Modelled from the spec: a stand-in for the collaborator
`format_file_contents` of `github_service`. -/
def filesFmt : List (Str × FileData) → Nat → Str := fun _ _ => lit "FILES"

/-- A one-file repository with a recognisable README body. -/
def repoReadme : RepoData :=
  { name := lit "one", language := lit "py", description := lit "d",
    stars := 0, forks := 0, readme := lit "UNIQUE_README_BODY",
    file_structure := .nil, file_contents := [(lit "a.py", FileData.str (lit "print"))] }

set_option maxRecDepth 8000 in
set_option maxHeartbeats 2000000 in
/-- C1 counterexample: the degraded rebuild does not preserve every other
section — the original system context contains the README excerpt and the
DIAGRAM REQUIREMENTS block, but the rebuilt context contains neither
(everything from the `FILE CONTENTS` label onward is discarded by
`context.split("FILE CONTENTS")[0]`). -/
theorem degraded_rebuild_counterexample :
    containsSubstr (mkContext treeFmt filesFmt repoReadme)
      (lit "DIAGRAM REQUIREMENTS") = true ∧
    containsSubstr (degradedContext filesFmt repoReadme
      (mkContext treeFmt filesFmt repoReadme)) (lit "DIAGRAM REQUIREMENTS") = false ∧
    containsSubstr (mkContext treeFmt filesFmt repoReadme)
      (lit "UNIQUE_README_BODY") = true ∧
    containsSubstr (degradedContext filesFmt repoReadme
      (mkContext treeFmt filesFmt repoReadme)) (lit "UNIQUE_README_BODY") = false := by
  refine ⟨by decide, by decide, by decide, by decide⟩

/-- C1 amended: on a context-length failure the rebuilt system message is
the original context truncated at the first occurrence of
`FILE CONTENTS`, followed by the reduced-budget header and the reduced
file contents (80,000-character cap, 15 files).  The sections before the
label — metadata, file structure, categorized components — are preserved
unchanged; the original file-contents section and everything after it —
the README excerpt and the diagram-requirements block — are discarded, not
preserved. -/
theorem degraded_rebuild_splits
    (fmtS : FSList → Str)
    (fmtC : List (Str × FileData) → Nat → Str) (repo : RepoData)
    (hshort : lenGT (mkContextRaw fmtS fmtC repo) MAX_CONTEXT_CHARS = false)
    (hidx : firstIdx (mkContextRaw fmtS fmtC repo) (lit "FILE CONTENTS") =
      some (mkContextPre fmtS repo (extract_detailed_repo_components repo)
        (extract_detailed_repo_components repo).all_files.length).length) :
    degradedContext fmtC repo (mkContext fmtS fmtC repo) =
      mkContextPre fmtS repo (extract_detailed_repo_components repo)
        (extract_detailed_repo_components repo).all_files.length ++
      (lit "FILE CONTENTS (reduced due to token limit):\n" ++ eqLine ++
        '\n' :: build_trimmed_file_contents fmtC repo 80000 15) := by
  have hctx : mkContext fmtS fmtC repo = mkContextRaw fmtS fmtC repo := by
    unfold mkContext
    rw [if_neg (by rw [hshort]; exact Bool.false_ne_true)]
  have hraw : mkContextRaw fmtS fmtC repo =
      mkContextPre fmtS repo (extract_detailed_repo_components repo)
        (extract_detailed_repo_components repo).all_files.length ++
      lit "FILE CONTENTS" ++
      mkContextPost (build_trimmed_file_contents fmtC repo
        MAX_FILE_CONTENTS_CHARS MAX_FILES_IN_PROMPT) repo
        (max 15 ((extract_detailed_repo_components repo).all_files.length / 2))
        (extract_detailed_repo_components repo).all_files.length := rfl
  have hsplit : splitFirstSub (mkContextRaw fmtS fmtC repo) (lit "FILE CONTENTS") =
      (mkContextRaw fmtS fmtC repo).take
        (mkContextPre fmtS repo (extract_detailed_repo_components repo)
          (extract_detailed_repo_components repo).all_files.length).length := by
    unfold splitFirstSub
    rw [hidx]
  have htake : (mkContextRaw fmtS fmtC repo).take
      (mkContextPre fmtS repo (extract_detailed_repo_components repo)
        (extract_detailed_repo_components repo).all_files.length).length =
      mkContextPre fmtS repo (extract_detailed_repo_components repo)
        (extract_detailed_repo_components repo).all_files.length := by
    conv_lhs => rw [hraw]
    rw [List.append_assoc, List.take_left]
  unfold degradedContext
  rw [hctx, hsplit, htake]
  simp [List.append_assoc]

set_option maxRecDepth 8000 in
set_option maxHeartbeats 2000000 in
/-- Witness for `degraded_rebuild_splits` at a concrete repository and
formatters. -/
theorem degraded_rebuild_splits_witness :
    lenGT (mkContextRaw treeFmt filesFmt repoReadme) MAX_CONTEXT_CHARS = false ∧
    degradedContext filesFmt repoReadme (mkContext treeFmt filesFmt repoReadme) =
      mkContextPre treeFmt repoReadme
        (extract_detailed_repo_components repoReadme)
        (extract_detailed_repo_components repoReadme).all_files.length ++
      (lit "FILE CONTENTS (reduced due to token limit):\n" ++ eqLine ++
        '\n' :: build_trimmed_file_contents filesFmt repoReadme 80000 15) := by
  refine ⟨by decide, ?_⟩
  exact degraded_rebuild_splits treeFmt filesFmt repoReadme (by decide) (by decide)

end LlmService
